import Mathlib

/-! A verification development of `main.cpp` of vcproj2filter.

The program reads a Visual Studio project (an XML document), collects the
`Include` paths of the `ClCompile`, `ClInclude` and `None` items of every
unlabeled `ItemGroup`, derives a filter name from each path, and writes a
companion `.filters` document.

Modelling conventions.

* A C string (`const char*`, `std::string`) is the list of its characters
  before the terminating NUL.  The program only compares characters with
  `'.'` and `'\\'` and orders strings by character code.  A `const char*`
  that walks through a buffer (`++cpath`) is the suffix of the buffer that
  starts at the pointer, so `*cpath` is the head of the list (NUL when the
  list is empty).
* Paths are shorter than `2^31` characters, so the `int` that receives the
  result of `find_last_of` holds the index exactly, and `-1` exactly when the
  character does not occur (`npos` narrowed to `int`).
* `std::set<std::string>` is a strictly increasing list, `std::map` a list of
  key/value pairs with strictly increasing keys; both start empty.
* A pointer to a DOM node is the list of the node and its following siblings;
  the null pointer is the empty list.
-/

namespace Vcproj2Filter

/-! ## Strings -/

/-- A C string: the characters before the terminating NUL. -/
abbrev CStr := List Char

/-- Comparison of `std::string` (`operator<`): lexicographic on character
codes, a proper prefix being smaller. -/
def strLt : CStr → CStr → Bool
  | [], [] => false
  | [], _ :: _ => true
  | _ :: _, [] => false
  | a :: as, b :: bs =>
    if a.toNat < b.toNat then true
    else if b.toNat < a.toNat then false
    else strLt as bs

/-- Index of the last occurrence of `c` in `path`, if any
(`std::string::find_last_of(char)`, `none` standing for `npos`). -/
def find_last_of (path : CStr) (c : Char) : Option Nat :=
  match path with
  | [] => none
  | a :: rest =>
    match find_last_of rest c with
    | some i => some (i + 1)
    | none => if a = c then some 0 else none

/-- The value stored by `int lastSlash = path.find_last_of(c)`: the index, or
`-1` for `npos`. -/
def lastIndexInt (path : CStr) (c : Char) : Int :=
  match find_last_of path c with
  | some i => (i : Int)
  | none => -1

/-! ## The path normalizer (lines 32-36 of `ParseGroup`) -/

/-- The inner loop `while (*cpath == '.') ++cpath;`. -/
def skipDots : CStr → CStr
  | [] => []
  | c :: rest => if c = '.' then skipDots rest else c :: rest

/-- The statement `if (*cpath == '\\') ++cpath;`. -/
def skipSlash : CStr → CStr
  | [] => []
  | c :: rest => if c = '\\' then rest else c :: rest

/-- The test `*cpath == '.'`. -/
def atDot : CStr → Bool
  | [] => false
  | c :: _ => c = '.'

/-- The `do { ... } while (*cpath == '.')` loop, run for at most `fuel`
iterations; `none` when the fuel runs out before the loop exits. -/
def stripLoop : Nat → CStr → Option CStr
  | 0, _ => none
  | fuel + 1, cpath =>
    let cpath1 := skipDots cpath
    let cpath2 := skipSlash cpath1
    if atDot cpath2 then stripLoop fuel cpath2 else some cpath2

/-- The pointer `cpath` after the stripping loop.  The loop is given one
iteration more than the length of the string, which it never uses up
(`stripLoop_isSome`), so the second branch is never taken. -/
def normalize (cpath : CStr) : CStr :=
  match stripLoop (cpath.length + 1) cpath with
  | some r => r
  | none => cpath

/-- Reference normalizer, following the words of the specification: drop all
leading dots, then one leading backslash if present, and repeat while the
remainder begins with a dot. -/
def normalizeRef (s : CStr) : CStr :=
  let afterDots := s.dropWhile (fun c => c = '.')
  let afterSlash := if afterDots.head? = some '\\' then afterDots.tail else afterDots
  if h : afterSlash.head? = some '.' then
    have : afterSlash.length < s.length := by
      have h1 : afterDots.length ≤ s.length := by
        have := (List.dropWhile_suffix (fun c => decide (c = '.')) (l := s)).length_le
        simpa [afterDots] using this
      have h2 : afterDots.head? = some '\\' := by
        by_contra hne
        have hd : afterSlash = afterDots := by simp [afterSlash, hne]
        rw [hd] at h
        cases hq : afterDots with
        | nil => simp [hq] at h
        | cons c t =>
          have hc : c = '.' := by simpa [hq] using h
          have := List.head_dropWhile_not (fun c => decide (c = '.')) s
          simp [afterDots] at hq
          simp [hq, hc] at this
      have h3 : afterSlash = afterDots.tail := by simp [afterSlash, h2]
      cases hq : afterDots with
      | nil => simp [hq] at h2
      | cons c t =>
        rw [h3, hq]
        rw [hq] at h1
        simp at h1 ⊢
        omega
    normalizeRef afterSlash
  else afterSlash
termination_by s.length

/-! ## The global collections -/

/-- The record `FileEntry` of the program. -/
structure FileEntry where
  m_filename : CStr
  m_filtername : CStr
deriving DecidableEq, Repr

/-- The two global collections `g_filters` and `g_files`. -/
structure Globals where
  g_filters : List CStr
  g_files : List (CStr × List FileEntry)
deriving DecidableEq, Repr

/-- The state at program start: both collections empty. -/
def Globals.empty : Globals := ⟨[], []⟩

/-- The call `std::set<std::string>::insert`: the value is placed at its
position in the order, and an equivalent value already present is kept. -/
def setInsert (x : CStr) : List CStr → List CStr
  | [] => [x]
  | y :: ys =>
    if strLt x y then x :: y :: ys
    else if strLt y x then y :: setInsert x ys
    else y :: ys

/-- The lookup `g_files[group]` (`std::map::operator[]`): a key that is
absent is inserted at its position with an empty vector. -/
def mapIndex (k : CStr) : List (CStr × List FileEntry) → List (CStr × List FileEntry)
  | [] => [(k, [])]
  | (k1, v) :: m =>
    if strLt k k1 then (k, []) :: (k1, v) :: m
    else if strLt k1 k then (k1, v) :: mapIndex k m
    else (k1, v) :: m

/-- The call `list.push_back(entry)` through the reference `list`, which is
bound to the vector stored under `group`. -/
def pushBack (group : CStr) (entry : FileEntry) :
    List (CStr × List FileEntry) → List (CStr × List FileEntry)
  | [] => []
  | (k1, v) :: m =>
    if k1 = group then (k1, v ++ [entry]) :: m
    else (k1, v) :: pushBack group entry m

/-! ## The DOM of the XML library -/

/-- Modelled from the spec: the DOM nodes of the XML library (tinyxml2, which
is not part of the sources).  An element has a name, attributes in document
order and child nodes in document order; the other kinds of node are text,
the XML declaration, and everything else (comments, unknown nodes). -/
inductive XMLNode where
  | element (name : CStr) (attrs : List (CStr × CStr)) (children : List XMLNode)
  | text (value : CStr)
  | declaration
  | other

/-- A pointer to a node: the node and its following siblings, the empty list
for the null pointer. -/
abbrev NodePtr := List XMLNode

/-- Lookup of a name in an attribute list: the value of the first attribute
with that name. -/
def findAttribute (name : CStr) : List (CStr × CStr) → Option CStr
  | [] => none
  | (k, v) :: rest => if k = name then some v else findAttribute name rest

/-- Modelled from the spec: the attribute lookup `XMLElement::Attribute(name)`
of the XML library, `none` standing for the null pointer it returns when the
attribute is absent. -/
def XMLNode.Attribute : XMLNode → CStr → Option CStr
  | .element _ attrs _, name => findAttribute name attrs
  | _, _ => none

/-- Whether a node is an element with the given name. -/
def XMLNode.isElementNamed : XMLNode → CStr → Bool
  | .element n _ _, name => n = name
  | _, _ => false

/-- The child nodes of a node, in document order. -/
def XMLNode.childNodes : XMLNode → List XMLNode
  | .element _ _ children => children
  | _ => []

/-- The first node of a sibling list that is an element with the given name,
as a pointer. -/
def seekElement (name : CStr) : List XMLNode → NodePtr
  | [] => []
  | n :: rest => if n.isElementNamed name then n :: rest else seekElement name rest

/-- Modelled from the spec: `XMLNode::FirstChildElement(name)` of the XML
library, the first direct child that is an element of that tag. -/
def FirstChildElement (node : XMLNode) (name : CStr) : NodePtr :=
  seekElement name node.childNodes

/-- Modelled from the spec: `XMLNode::NextSiblingElement(name)` of the XML
library, the next following sibling that is an element of that tag.  Callers
pass a pointer that is not null. -/
def NextSiblingElement (node : NodePtr) (name : CStr) : NodePtr :=
  seekElement name node.tail

/-! ## Extraction: `ParseGroup` and `ParseItemGroup` -/

/-- The body of the `while` loop of `ParseGroup` (lines 27-49) for the element
`itemGroup` points to. -/
def ParseGroup.body (group : CStr) (elem : XMLNode) (st : Globals) : Globals :=
  match elem.Attribute "Include".toList with
  | none => st
  | some cpath0 =>
    let cpath := normalize cpath0
    let lastSlash := lastIndexInt cpath '\\'
    if lastSlash ≠ -1 then
      let path := cpath.take lastSlash.toNat
      { g_filters := setInsert path st.g_filters
        g_files := pushBack group ⟨cpath0, path⟩ st.g_files }
    else
      { g_filters := st.g_filters
        g_files := pushBack group ⟨cpath0, []⟩ st.g_files }

/-- The loop `while (itemGroup) { ...; itemGroup = itemGroup->NextSiblingElement(group); }`
of `ParseGroup`, run for at most `fuel` iterations; `none` when the fuel runs
out before the pointer becomes null. -/
def ParseGroup.loop (group : CStr) : Nat → NodePtr → Globals → Option Globals
  | _, [], st => some st
  | 0, _ :: _, _ => none
  | fuel + 1, elem :: siblings, st =>
    ParseGroup.loop group fuel (NextSiblingElement (elem :: siblings) group)
      (ParseGroup.body group elem st)

/-- The function `ParseGroup` (lines 22-52).  The loop is given as many
iterations as there are nodes from `itemGroup` on, which is enough
(`ParseGroup_loop_eq`), so the second branch is never taken. -/
def ParseGroup (itemGroup : NodePtr) (group : CStr) (st : Globals) : Globals :=
  let st1 : Globals := { g_filters := st.g_filters, g_files := mapIndex group st.g_files }
  match ParseGroup.loop group itemGroup.length itemGroup st1 with
  | some st2 => st2
  | none => st1

/-- The function `ParseItemGroup` (lines 54-69); `itemGroup` is not null. -/
def ParseItemGroup (itemGroup : XMLNode) (st : Globals) : Globals :=
  match itemGroup.Attribute "Label".toList with
  | some _ => st
  | none =>
    let cppElem := FirstChildElement itemGroup "ClCompile".toList
    let st1 := ParseGroup cppElem "ClCompile".toList st
    let hElem := FirstChildElement itemGroup "ClInclude".toList
    let st2 := ParseGroup hElem "ClInclude".toList st1
    let nElem := FirstChildElement itemGroup "None".toList
    ParseGroup nElem "None".toList st2

/-! ## The streaming printer of the XML library -/

/-- The calls the program makes on the `XMLPrinter`. -/
inductive PrinterCall where
  | PushHeader (writeBOM writeDeclaration : Bool)
  | OpenElement (name : CStr)
  | PushAttribute (name value : CStr)
  | PushText (text : CStr)
  | CloseElement
deriving DecidableEq, Repr

/-- An element that has been opened and not yet closed: its name, the
attributes pushed so far and the children completed so far. -/
structure OpenFrame where
  name : CStr
  attrs : List (CStr × CStr)
  children : List XMLNode

/-- State of the printer: the open elements, innermost first, and the
top-level nodes completed so far. -/
structure PrinterState where
  stack : List OpenFrame
  done : List XMLNode

/-- A completed node is appended to the innermost open element, or to the
top level when no element is open. -/
def PrinterState.addNode (s : PrinterState) (n : XMLNode) : PrinterState :=
  match s.stack with
  | [] => { stack := [], done := s.done ++ [n] }
  | f :: rest =>
    { stack := { name := f.name, attrs := f.attrs, children := f.children ++ [n] } :: rest
      done := s.done }

/-- Modelled from the spec: one call on the streaming printer of the XML
library.  The header comes first; an attribute is accepted only directly
after the opening of its element, before any child or text; text and
`CloseElement` need an open element.  `none` when the call is not allowed. -/
def printerStep (s : PrinterState) : PrinterCall → Option PrinterState
  | .PushHeader _ writeDeclaration =>
    match s.stack, s.done with
    | [], [] => some (if writeDeclaration then s.addNode .declaration else s)
    | _, _ => none
  | .OpenElement name =>
    some { stack := { name := name, attrs := [], children := [] } :: s.stack, done := s.done }
  | .PushAttribute name value =>
    match s.stack with
    | [] => none
    | f :: rest =>
      if f.children.isEmpty then
        some { stack := { name := f.name, attrs := f.attrs ++ [(name, value)],
                          children := [] } :: rest
               done := s.done }
      else none
  | .PushText text =>
    match s.stack with
    | [] => none
    | _ :: _ => some (s.addNode (.text text))
  | .CloseElement =>
    match s.stack with
    | [] => none
    | f :: rest =>
      some (PrinterState.addNode { stack := rest, done := s.done }
        (.element f.name f.attrs f.children))

/-- A sequence of printer calls, from a given printer state. -/
def runPrinter : PrinterState → List PrinterCall → Option PrinterState
  | s, [] => some s
  | s, c :: cs =>
    match printerStep s c with
    | none => none
    | some s1 => runPrinter s1 cs

/-- The document a sequence of printer calls describes: its top-level nodes,
provided every call is allowed and every element opened has been closed. -/
def render (calls : List PrinterCall) : Option (List XMLNode) :=
  match runPrinter { stack := [], done := [] } calls with
  | some s => if s.stack.isEmpty then some s.done else none
  | none => none

/-! ## The writer: `MakeFilterFile` -/

/-- The loop over `g_filters` (lines 87-92). -/
def MakeFilterFile.filters : List CStr → List PrinterCall
  | [] => []
  | name :: rest =>
    [.OpenElement "Filter".toList, .PushAttribute "Include".toList name, .CloseElement]
      ++ MakeFilterFile.filters rest

/-- The body of the inner loop over the entries of one group (lines 104-112). -/
def MakeFilterFile.entry (itemType : CStr) (e : FileEntry) : List PrinterCall :=
  [.OpenElement itemType, .PushAttribute "Include".toList e.m_filename]
    ++ (if e.m_filtername.isEmpty then []
        else [.OpenElement "Filter".toList, .PushText e.m_filtername, .CloseElement])
    ++ [.CloseElement]

/-- The inner loop over the entries of one group (lines 102-113). -/
def MakeFilterFile.entries (itemType : CStr) : List FileEntry → List PrinterCall
  | [] => []
  | e :: rest => MakeFilterFile.entry itemType e ++ MakeFilterFile.entries itemType rest

/-- The outer loop over `g_files`, in key order (lines 98-114). -/
def MakeFilterFile.groups : List (CStr × List FileEntry) → List PrinterCall
  | [] => []
  | (itemType, files) :: rest =>
    MakeFilterFile.entries itemType files ++ MakeFilterFile.groups rest

/-- The printer calls of `MakeFilterFile` once the file is open (lines 77-118). -/
def MakeFilterFile.calls (st : Globals) : List PrinterCall :=
  [.PushHeader false true,
   .OpenElement "Project".toList,
   .PushAttribute "ToolsVersion".toList "4.0".toList,
   .PushAttribute "xmlns".toList "http://schemas.microsoft.com/developer/msbuild/2003".toList,
   .OpenElement "ItemGroup".toList]
    ++ MakeFilterFile.filters st.g_filters
    ++ [.CloseElement, .OpenElement "ItemGroup".toList]
    ++ MakeFilterFile.groups st.g_files
    ++ [.CloseElement, .CloseElement]

/-- The function `MakeFilterFile` (lines 71-119): `fopenOk` tells whether
`fopen` returned a file; the result is what is written, `none` when nothing
is (the early return). -/
def MakeFilterFile (fopenOk : Bool) (st : Globals) : Option (List PrinterCall) :=
  if fopenOk then some (MakeFilterFile.calls st) else none

/-! ## The function `main` -/

/-- What the program does to the outside world, in order. -/
inductive IOEvent where
  | printf (text : CStr)
  | loadFile (path : CStr)
  | fopen (path : CStr)
  | write (calls : List PrinterCall)
deriving DecidableEq, Repr

/-- How a run ends: `exitCode` is the value `main` returns, `none` when the
run dereferences a null pointer instead of returning. -/
structure Outcome where
  exitCode : Option Int
  events : List IOEvent
  globals : Globals
deriving DecidableEq, Repr

/-- The loop over the `ItemGroup` children of the project (lines 143-147), run
for at most `fuel` iterations; `none` when the fuel runs out. -/
def main.loop : Nat → NodePtr → Globals → Option Globals
  | _, [], st => some st
  | 0, _ :: _, _ => none
  | fuel + 1, itemGroup :: siblings, st =>
    main.loop fuel (NextSiblingElement (itemGroup :: siblings) "ItemGroup".toList)
      (ParseItemGroup itemGroup st)

/-- The traversal of the loaded document (lines 140-147): the globals after
it, `none` when `root` or `projectGroup` is null where it is dereferenced.
The loop is given as many iterations as there are nodes from its first
pointer on, which is enough (`main_loop_eq`). -/
def extract (doc : List XMLNode) : Option Globals :=
  match doc with
  | [] => none
  | root :: after =>
    match NextSiblingElement (root :: after) "Project".toList with
    | [] => none
    | projectGroup :: _ =>
      let itemGroup := FirstChildElement projectGroup "ItemGroup".toList
      match main.loop itemGroup.length itemGroup Globals.empty with
      | some st => some st
      | none => some Globals.empty

/-- The function `main` (lines 121-155).  `argv` is the argument vector (its
length is `argc`), `loadResult` what `doc.LoadFile` yields when it is called
(the top-level nodes of the document, `none` for an error code), `fopenOk`
whether `fopen` succeeds when it is called. -/
def main (argv : List CStr) (loadResult : Option (List XMLNode)) (fopenOk : Bool) : Outcome :=
  if argv.length ≠ 2 then
    { exitCode := some 1
      events := [.printf "Usage: vcproj2filter 'path/to/my.vcproj'\n".toList]
      globals := Globals.empty }
  else
    let vcproj := argv.getD 1 []
    match loadResult with
    | none =>
      { exitCode := some 1
        events := [.loadFile vcproj,
                   .printf ("Error: Could not open '".toList ++ vcproj ++ "'\n".toList)]
        globals := Globals.empty }
    | some doc =>
      match extract doc with
      | none => { exitCode := none, events := [.loadFile vcproj], globals := Globals.empty }
      | some st =>
        let output := vcproj ++ ".filters".toList
        match MakeFilterFile fopenOk st with
        | some calls =>
          { exitCode := some 0
            events := [.loadFile vcproj, .fopen output, .write calls]
            globals := st }
        | none =>
          { exitCode := some 0
            events := [.loadFile vcproj, .fopen output]
            globals := st }

/-! ## Vocabulary of the properties -/

/-- The order invariant of `std::set`: strictly increasing. -/
def StrictSorted (s : List CStr) : Prop := s.Pairwise (fun a b => strLt a b = true)

/-- The filter name `ParseGroup` derives from an `Include` value (lines 32-46):
the characters of the normalized path before index `lastSlash`, when
`lastSlash != -1`. -/
def filterOf (inc : CStr) : Option CStr :=
  let cpath := normalize inc
  let lastSlash := lastIndexInt cpath '\\'
  if lastSlash ≠ -1 then some (cpath.take lastSlash.toNat) else none

/-- The entry `ParseGroup` builds for an `Include` value. -/
def entryOf (inc : CStr) : FileEntry :=
  match filterOf inc with
  | some path => ⟨inc, path⟩
  | none => ⟨inc, []⟩

/-- The effect of one loop iteration of `ParseGroup` on the globals when the
element has the `Include` value `inc`. -/
def record (group : CStr) (st : Globals) (inc : CStr) : Globals :=
  { g_filters :=
      match filterOf inc with
      | some path => setInsert path st.g_filters
      | none => st.g_filters
    g_files := pushBack group (entryOf inc) st.g_files }

/-- The elements the loop of `ParseGroup` visits from a pointer: the element
pointed to, then its following siblings that are elements of the tag. -/
def visited (group : CStr) : NodePtr → List XMLNode
  | [] => []
  | elem :: siblings => elem :: siblings.filter (fun n => n.isElementNamed group)

/-- The `Include` values of those nodes of a list that carry the attribute,
in order. -/
def includeValues (nodes : List XMLNode) : List CStr :=
  nodes.filterMap (fun n => n.Attribute "Include".toList)

/-- The vector stored under a key of `g_files` (empty when the key is absent). -/
def filesAt (group : CStr) : List (CStr × List FileEntry) → List FileEntry
  | [] => []
  | (k, v) :: m => if k = group then v else filesAt group m

/-- The keys of `g_files`, in iteration order. -/
def keysOf (m : List (CStr × List FileEntry)) : List CStr := m.map Prod.fst

/-- The order invariant of `std::map`: keys strictly increasing. -/
def KeysSorted (m : List (CStr × List FileEntry)) : Prop := StrictSorted (keysOf m)

/-- Successive insertion of a list of names into a set. -/
def insertAll (names : List CStr) (s : List CStr) : List CStr :=
  names.foldl (fun acc x => setInsert x acc) s

/-- The `Include` values of the children of an `ItemGroup` that are elements
of the given tag and carry the attribute, in document order. -/
def tagIncludes (tag : CStr) (itemGroup : XMLNode) : List CStr :=
  includeValues (itemGroup.childNodes.filter (fun n => n.isElementNamed tag))

/-- The `Include` values of one `ItemGroup` in the order `ParseItemGroup`
handles them: `ClCompile` items, then `ClInclude` items, then `None` items. -/
def itemGroupIncludes (itemGroup : XMLNode) : List CStr :=
  tagIncludes "ClCompile".toList itemGroup ++ tagIncludes "ClInclude".toList itemGroup
    ++ tagIncludes "None".toList itemGroup

/-- The `ItemGroup` children of the project element that carry no `Label`
attribute, in document order. -/
def unlabeledItemGroups (projectGroup : XMLNode) : List XMLNode :=
  (projectGroup.childNodes.filter (fun n => n.isElementNamed "ItemGroup".toList)).filter
    (fun n => (n.Attribute "Label".toList).isNone)

/-- The three keys `ParseItemGroup` looks up, in the order of `std::map`. -/
def groupTags : List CStr := ["ClCompile".toList, "ClInclude".toList, "None".toList]

/-- The keys of `g_files` after `ParseItemGroup` has looked up its three keys. -/
def withGroupTags (keys : List CStr) : List CStr :=
  setInsert "None".toList (setInsert "ClInclude".toList (setInsert "ClCompile".toList keys))

/-- The `Include` values of the items of one tag over the unlabeled
`ItemGroup` children of the project element, in document order. -/
def docIncludes (tag : CStr) (projectGroup : XMLNode) : List CStr :=
  (unlabeledItemGroups projectGroup).flatMap (tagIncludes tag)

/-- The globals after the traversal of a document whose project element is
`projectGroup`, written out: the filter names of all recorded `Include`
values inserted into the empty set, and, once an unlabeled `ItemGroup` has
been seen, the three keys with the entries of their items. -/
def collected (projectGroup : XMLNode) : Globals :=
  { g_filters :=
      insertAll (((unlabeledItemGroups projectGroup).flatMap itemGroupIncludes).filterMap filterOf) []
    g_files :=
      if (unlabeledItemGroups projectGroup).isEmpty then []
      else groupTags.map (fun tag => (tag, (docIncludes tag projectGroup).map entryOf)) }

/-- The element written for one filter name: `Filter` with the attribute
`Include` and no children. -/
def filterElement (name : CStr) : XMLNode :=
  .element "Filter".toList [("Include".toList, name)] []

/-- The element written for one entry of a group: the group tag with the
attribute `Include`, and a nested `Filter` holding the filter name as text
when that name is not empty. -/
def entryElement (itemType : CStr) (e : FileEntry) : XMLNode :=
  .element itemType [("Include".toList, e.m_filename)]
    (if e.m_filtername.isEmpty then []
     else [.element "Filter".toList [] [.text e.m_filtername]])

/-- The elements written for all groups: key by key, entry by entry. -/
def groupElements (m : List (CStr × List FileEntry)) : List XMLNode :=
  m.flatMap (fun kv => kv.2.map (entryElement kv.1))

/-- The attributes of the root element of the output. -/
def projectAttributes : List (CStr × CStr) :=
  [("ToolsVersion".toList, "4.0".toList),
   ("xmlns".toList, "http://schemas.microsoft.com/developer/msbuild/2003".toList)]

/-- The output document with the given contents of its two item groups. -/
def filtersDocument (first second : List XMLNode) : List XMLNode :=
  [.declaration,
   .element "Project".toList projectAttributes
     [.element "ItemGroup".toList [] first, .element "ItemGroup".toList [] second]]

/-- The entries a call of `ParseGroup` appends to the vector of its group: what
the vector holds after the call beyond what it held before. -/
def storedBy (itemGroup : NodePtr) (group : CStr) (st : Globals) : List FileEntry :=
  (filesAt group (ParseGroup itemGroup group st).g_files).drop (filesAt group st.g_files).length

/-- The printer calls a run hands to the output file, if it writes any. -/
def Outcome.written (o : Outcome) : Option (List PrinterCall) :=
  o.events.findSome? (fun ev =>
    match ev with
    | .write calls => some calls
    | _ => none)

/-- The document a run writes, if it writes one. -/
def Outcome.document (o : Outcome) : Option (List XMLNode) :=
  match o.written with
  | some calls => render calls
  | none => none

/-- The elements written for the items of one tag: one per `Include` value of
the tag over the unlabeled item groups, in document order. -/
def tagElements (tag : CStr) (projectGroup : XMLNode) : List XMLNode :=
  (docIncludes tag projectGroup).map (fun p => entryElement tag (entryOf p))

/-- The states reachable from the empty state by calls of `ParseItemGroup` and
`ParseGroup` with any arguments. -/
inductive Reachable : Globals → Prop where
  | empty : Reachable Globals.empty
  | parseItemGroup (st : Globals) (itemGroup : XMLNode) :
      Reachable st → Reachable (ParseItemGroup itemGroup st)
  | parseGroup (st : Globals) (itemGroup : NodePtr) (group : CStr) :
      Reachable st → Reachable (ParseGroup itemGroup group st)

/-- Every stored entry with a non-empty filtername has that name in
`g_filters`. -/
def FilternamesRegistered (st : Globals) : Prop :=
  ∀ kv ∈ st.g_files, ∀ e ∈ kv.2, e.m_filtername ≠ [] → e.m_filtername ∈ st.g_filters

/-- Whether a string holds two backslashes next to each other. -/
def adjacentBackslashes : CStr → Bool
  | [] => false
  | a :: rest =>
    match rest with
    | [] => false
    | b :: _ => (decide (a = '\\') && decide (b = '\\')) || adjacentBackslashes rest

/-- The nesting depth after a sequence of printer calls, from a given depth:
`OpenElement` goes one level down and `CloseElement` one level up; `none` when
a `CloseElement` has no open element to close. -/
def nestingDepth : Nat → List PrinterCall → Option Nat
  | depth, [] => some depth
  | depth, .OpenElement _ :: cs => nestingDepth (depth + 1) cs
  | 0, .CloseElement :: _ => none
  | depth + 1, .CloseElement :: cs => nestingDepth depth cs
  | depth, .PushHeader _ _ :: cs => nestingDepth depth cs
  | depth, .PushAttribute _ _ :: cs => nestingDepth depth cs
  | depth, .PushText _ :: cs => nestingDepth depth cs

/-- Whether every `PushAttribute` of a sequence of printer calls comes directly
after the `OpenElement` of its element or after another `PushAttribute` of
that element, so before any child or text; `justOpened` tells whether an
element has just been opened when the sequence starts. -/
def attributesInPlace : Bool → List PrinterCall → Bool
  | _, [] => true
  | _, .OpenElement _ :: cs => attributesInPlace true cs
  | justOpened, .PushAttribute _ _ :: cs => justOpened && attributesInPlace true cs
  | _, .PushHeader _ _ :: cs => attributesInPlace false cs
  | _, .PushText _ :: cs => attributesInPlace false cs
  | _, .CloseElement :: cs => attributesInPlace false cs

/-- Whether the innermost open element of a printer state has just been
opened: it has no child yet. -/
def PrinterState.justOpened (s : PrinterState) : Bool :=
  match s.stack with
  | [] => false
  | f :: _ => f.children.isEmpty

/-- No name in `g_filters` and no filtername of a stored entry begins with a
dot. -/
def NoLeadingDot (st : Globals) : Prop :=
  (∀ f ∈ st.g_filters, f.head? ≠ some '.') ∧
  (∀ kv ∈ st.g_files, ∀ e ∈ kv.2, e.m_filtername.head? ≠ some '.')

/-! # Properties -/

/-! ## The order on strings -/

theorem strLt_irrefl (a : CStr) : strLt a a = false := by
  induction a with
  | nil => rfl
  | cons c t ih => simp [strLt, ih]

theorem strLt_trans {a b c : CStr} (hab : strLt a b = true) (hbc : strLt b c = true) :
    strLt a c = true := by
  induction a generalizing b c with
  | nil =>
    cases b with
    | nil => simp [strLt] at hab
    | cons y ys =>
      cases c with
      | nil => simp [strLt] at hbc
      | cons z zs => simp [strLt]
  | cons x xs ih =>
    cases b with
    | nil => simp [strLt] at hab
    | cons y ys =>
      cases c with
      | nil => simp [strLt] at hbc
      | cons z zs =>
        simp only [strLt] at hab hbc ⊢
        split_ifs at hab hbc ⊢ <;> first | rfl | omega | exact ih hab hbc

theorem strLt_connex {a b : CStr} (hab : strLt a b = false) (hba : strLt b a = false) :
    a = b := by
  induction a generalizing b with
  | nil =>
    cases b with
    | nil => rfl
    | cons y ys => simp [strLt] at hab
  | cons x xs ih =>
    cases b with
    | nil => simp [strLt] at hba
    | cons y ys =>
      simp only [strLt] at hab hba
      split_ifs at hab hba
      have hxy : x = y := by
        have h1 : x.toNat = y.toNat := by omega
        rw [← Char.ofNat_toNat x, ← Char.ofNat_toNat y, h1]
      rw [hxy, ih hab hba]

theorem strLt_ne {a b : CStr} (hab : strLt a b = true) : a ≠ b := by
  intro h
  rw [h, strLt_irrefl] at hab
  exact Bool.false_ne_true hab

/-- The comparison `strLt` is the lexicographic order on lists of characters,
characters being compared by their codes. -/
theorem strLt_iff_lex (a b : CStr) :
    strLt a b = true ↔ List.Lex (fun c d : Char => c.toNat < d.toNat) a b := by
  constructor
  · intro h
    induction a generalizing b with
    | nil =>
      cases b with
      | nil => simp [strLt] at h
      | cons y ys => exact List.Lex.nil
    | cons x xs ih =>
      cases b with
      | nil => simp [strLt] at h
      | cons y ys =>
        simp only [strLt] at h
        split_ifs at h with h1 h2
        · exact List.Lex.rel h1
        · have hxy : x = y := by
            have h3 : x.toNat = y.toNat := by omega
            rw [← Char.ofNat_toNat x, ← Char.ofNat_toNat y, h3]
          subst hxy
          exact List.Lex.cons (ih ys h)
  · intro h
    induction h with
    | nil => rfl
    | cons _ ih => simpa [strLt] using ih
    | rel hr => simp [strLt, hr]

/-! ## The set `g_filters` -/

theorem mem_setInsert (x y : CStr) (s : List CStr) :
    y ∈ setInsert x s ↔ y = x ∨ y ∈ s := by
  induction s with
  | nil => simp [setInsert]
  | cons z zs ih =>
    simp only [setInsert]
    split_ifs with h1 h2
    · simp
    · simp only [List.mem_cons, ih]
      tauto
    · have hxz : x = z := strLt_connex (by simpa using h1) (by simpa using h2)
      subst hxz
      simp

theorem strictSorted_setInsert (x : CStr) (s : List CStr) (hs : StrictSorted s) :
    StrictSorted (setInsert x s) := by
  induction s with
  | nil => simp [setInsert, StrictSorted]
  | cons z zs ih =>
    unfold StrictSorted at hs ih ⊢
    rw [List.pairwise_cons] at hs
    simp only [setInsert]
    split_ifs with h1 h2
    · rw [List.pairwise_cons, List.pairwise_cons]
      refine ⟨?_, hs⟩
      intro a ha
      rcases List.mem_cons.1 ha with rfl | ha
      · exact h1
      · exact strLt_trans h1 (hs.1 a ha)
    · rw [List.pairwise_cons]
      refine ⟨?_, ih hs.2⟩
      intro a ha
      rcases (mem_setInsert x a zs).1 ha with rfl | ha
      · exact h2
      · exact hs.1 a ha
    · rw [List.pairwise_cons]
      exact hs

theorem strictSorted_nodup {s : List CStr} (hs : StrictSorted s) : s.Nodup := by
  unfold StrictSorted at hs
  exact hs.imp (fun h => strLt_ne h)

/-! ## The path normalizer -/

theorem skipDots_eq_dropWhile (s : CStr) :
    skipDots s = s.dropWhile (fun c => decide (c = '.')) := by
  induction s with
  | nil => rfl
  | cons c t ih =>
    by_cases h : c = '.'
    · simp [skipDots, List.dropWhile, h, ih]
    · simp [skipDots, List.dropWhile, h]

theorem skipSlash_eq (s : CStr) :
    skipSlash s = if s.head? = some '\\' then s.tail else s := by
  cases s with
  | nil => rfl
  | cons c t =>
    by_cases h : c = '\\'
    · simp [skipSlash, h]
    · simp [skipSlash, h]

theorem atDot_iff (s : CStr) : atDot s = true ↔ s.head? = some '.' := by
  cases s with
  | nil => simp [atDot]
  | cons c t => simp [atDot]

theorem skipDots_suffix (s : CStr) :
    ∃ pre : CStr, s = pre ++ skipDots s ∧ ∀ c ∈ pre, c = '.' := by
  induction s with
  | nil => exact ⟨[], rfl, by simp⟩
  | cons c t ih =>
    by_cases h : c = '.'
    · obtain ⟨pre, h1, h2⟩ := ih
      refine ⟨c :: pre, ?_, ?_⟩
      · simp only [skipDots, h, if_true, List.cons_append]
        rw [← h1]
      · intro d hd
        rcases List.mem_cons.1 hd with rfl | hd
        · exact h
        · exact h2 d hd
    · exact ⟨[], by simp [skipDots, h], by simp⟩

theorem atDot_skipDots (s : CStr) : atDot (skipDots s) = false := by
  induction s with
  | nil => rfl
  | cons c t ih =>
    by_cases h : c = '.'
    · simp [skipDots, h, ih]
    · simp [skipDots, h, atDot]

theorem skipSlash_suffix (s : CStr) :
    ∃ pre : CStr, s = pre ++ skipSlash s ∧ (∀ c ∈ pre, c = '\\') ∧
      (atDot s = false → atDot (skipSlash s) = true → pre.length = 1) := by
  cases s with
  | nil => exact ⟨[], rfl, by simp, by simp [skipSlash, atDot]⟩
  | cons c t =>
    by_cases h : c = '\\'
    · exact ⟨[c], by simp [skipSlash, h], by simp [h], by simp⟩
    · refine ⟨[], by simp [skipSlash, h], by simp, ?_⟩
      intro h1 h2
      simp [skipSlash, h] at h2
      rw [h1] at h2
      exact absurd h2 (by simp)

/-- One pass of the loop body removes only dots and backslashes, and when the
loop goes round again it has removed at least one character. -/
theorem body_suffix (s : CStr) :
    ∃ pre : CStr, s = pre ++ skipSlash (skipDots s) ∧ (∀ c ∈ pre, c = '.' ∨ c = '\\') ∧
      (atDot (skipSlash (skipDots s)) = true → 0 < pre.length) := by
  obtain ⟨p1, h1, h2⟩ := skipDots_suffix s
  obtain ⟨p2, h3, h4, h5⟩ := skipSlash_suffix (skipDots s)
  refine ⟨p1 ++ p2, ?_, ?_, ?_⟩
  · rw [List.append_assoc, ← h3, ← h1]
  · intro c hc
    rcases List.mem_append.1 hc with hc | hc
    · exact Or.inl (h2 c hc)
    · exact Or.inr (h4 c hc)
  · intro h
    have := h5 (atDot_skipDots s) h
    simp [this]

/-- With more iterations allowed than the string has characters, the loop exits
by its own test, and what it returns has the three properties of a normalized
path. -/
theorem stripLoop_spec (fuel : Nat) (s : CStr) (hf : s.length < fuel) :
    ∃ r pre, stripLoop fuel s = some r ∧ s = pre ++ r ∧
      (∀ c ∈ pre, c = '.' ∨ c = '\\') ∧ atDot r = false := by
  induction fuel generalizing s with
  | zero => omega
  | succ n ih =>
    obtain ⟨p, h1, h2, h3⟩ := body_suffix s
    simp only [stripLoop]
    by_cases hd : atDot (skipSlash (skipDots s)) = true
    · have hlen : (skipSlash (skipDots s)).length < n := by
        have hp := h3 hd
        have : s.length = p.length + (skipSlash (skipDots s)).length := by
          conv_lhs => rw [h1]
          simp
        omega
      obtain ⟨r, pre, e1, e2, e3, e4⟩ := ih _ hlen
      refine ⟨r, p ++ pre, by simp [hd, e1], ?_, ?_, e4⟩
      · rw [List.append_assoc, ← e2, ← h1]
      · intro c hc
        rcases List.mem_append.1 hc with hc | hc
        · exact h2 c hc
        · exact e3 c hc
    · refine ⟨_, p, by simp [hd], h1, h2, by simpa using hd⟩

theorem stripLoop_isSome (s : CStr) : (stripLoop (s.length + 1) s).isSome = true := by
  obtain ⟨r, _, h, _⟩ := stripLoop_spec (s.length + 1) s (by omega)
  simp [h]

theorem stripLoop_eq_normalize (s : CStr) : stripLoop (s.length + 1) s = some (normalize s) := by
  obtain ⟨r, _, h, _⟩ := stripLoop_spec (s.length + 1) s (by omega)
  simp [normalize, h]

theorem stripLoop_eq_ref (fuel : Nat) (s : CStr) (hf : s.length < fuel) :
    stripLoop fuel s = some (normalizeRef s) := by
  induction fuel generalizing s with
  | zero => omega
  | succ n ih =>
    obtain ⟨p, h1, _, h3⟩ := body_suffix s
    rw [normalizeRef]
    simp only [stripLoop]
    have hb : skipSlash (skipDots s) =
        (if (s.dropWhile (fun c => decide (c = '.'))).head? = some '\\'
          then (s.dropWhile (fun c => decide (c = '.'))).tail
          else s.dropWhile (fun c => decide (c = '.'))) := by
      rw [skipSlash_eq, skipDots_eq_dropWhile]
    rw [← hb]
    by_cases hd : atDot (skipSlash (skipDots s)) = true
    · have hlen : (skipSlash (skipDots s)).length < n := by
        have hp := h3 hd
        have : s.length = p.length + (skipSlash (skipDots s)).length := by
          conv_lhs => rw [h1]
          simp
        omega
      have hh := (atDot_iff _).1 hd
      simp [hd, hh, ih _ hlen]
    · have hh : ¬ (skipSlash (skipDots s)).head? = some '.' := fun h => hd ((atDot_iff _).2 h)
      simp [hd, hh]

theorem normalize_spec (s : CStr) :
    ∃ pre, s = pre ++ normalize s ∧ (∀ c ∈ pre, c = '.' ∨ c = '\\') ∧
      atDot (normalize s) = false := by
  obtain ⟨r, pre, h, h1, h2, h3⟩ := stripLoop_spec (s.length + 1) s (by omega)
  have hr : normalize s = r := by simp [normalize, h]
  exact ⟨pre, by rw [hr]; exact h1, h2, by rw [hr]; exact h3⟩

/-! ## The last backslash -/

theorem find_last_of_none_iff (s : CStr) (c : Char) : find_last_of s c = none ↔ c ∉ s := by
  induction s with
  | nil => simp [find_last_of]
  | cons a t ih =>
    simp only [find_last_of]
    cases h : find_last_of t c with
    | some i =>
      have : ¬ c ∉ t := fun hn => by rw [ih.2 hn] at h; cases h
      simp only [List.mem_cons, not_or]
      constructor
      · intro h0; cases h0
      · intro h0; exact absurd h0.2 this
    | none =>
      have hn := ih.1 h
      by_cases hac : a = c
      · simp [hac]
      · have hca : ¬ c = a := fun e => hac e.symm
        simp [hac, hca, hn]

theorem find_last_of_split (f tail : CStr) (c : Char) (ht : c ∉ tail) :
    find_last_of (f ++ c :: tail) c = some f.length := by
  induction f with
  | nil => simp [find_last_of, (find_last_of_none_iff tail c).2 ht]
  | cons a t ih => simp [find_last_of, ih]

theorem find_last_of_some (s : CStr) (c : Char) (i : Nat) (h : find_last_of s c = some i) :
    ∃ tail, s = s.take i ++ c :: tail ∧ c ∉ tail := by
  induction s generalizing i with
  | nil => simp [find_last_of] at h
  | cons a t ih =>
    simp only [find_last_of] at h
    cases hq : find_last_of t c with
    | some j =>
      rw [hq] at h
      simp only [Option.some.injEq] at h
      subst h
      obtain ⟨tail, h1, h2⟩ := ih j hq
      refine ⟨tail, ?_, h2⟩
      simp only [List.take_succ_cons, List.cons_append]
      rw [← h1]
    | none =>
      rw [hq] at h
      by_cases hac : a = c
      · simp only [hac, if_true, Option.some.injEq] at h
        subst h
        exact ⟨t, by simp [hac], (find_last_of_none_iff t c).1 hq⟩
      · simp [hac] at h

theorem filterOf_of_split (p f tail : CStr) (hn : normalize p = f ++ '\\' :: tail)
    (ht : '\\' ∉ tail) : filterOf p = some f := by
  simp [filterOf, lastIndexInt, hn, find_last_of_split f tail '\\' ht]

theorem filterOf_of_no_backslash (p : CStr) (hn : '\\' ∉ normalize p) : filterOf p = none := by
  simp [filterOf, lastIndexInt, (find_last_of_none_iff _ _).2 hn]

theorem filterOf_some_split (p f : CStr) (h : filterOf p = some f) :
    ∃ tail, normalize p = f ++ '\\' :: tail ∧ '\\' ∉ tail := by
  simp only [filterOf, lastIndexInt] at h
  cases hq : find_last_of (normalize p) '\\' with
  | none => simp [hq] at h
  | some i =>
    obtain ⟨tail, h1, h2⟩ := find_last_of_some _ _ i hq
    simp only [hq] at h
    have hi : ((i : Int) ≠ -1) := by omega
    simp only [hi, ne_eq, not_false_eq_true, if_true, Option.some.injEq, Int.toNat_ofNat] at h
    rw [h] at h1
    exact ⟨tail, h1, h2⟩

/-- C10: the stripping loop of `ParseGroup` exits by its own test and returns
the reference normalizer's result (drop all leading dots, then one leading
backslash if present, repeat while the remainder begins with a dot); the
result is a suffix of the input that does not begin with a dot, and the
prefix removed consists of dots and backslashes only. -/
theorem normalize_eq_reference (s : CStr) :
    stripLoop (s.length + 1) s = some (normalize s) ∧
    normalize s = normalizeRef s ∧
    (∃ removed, s = removed ++ normalize s ∧ ∀ c ∈ removed, c = '.' ∨ c = '\\') ∧
    (normalize s).head? ≠ some '.' := by
  have h1 := stripLoop_eq_normalize s
  have h2 := stripLoop_eq_ref (s.length + 1) s (by omega)
  obtain ⟨pre, h3, h4, h5⟩ := normalize_spec s
  refine ⟨h1, ?_, ⟨pre, h3, h4⟩, ?_⟩
  · rw [h1] at h2
    exact Option.some.inj h2
  · intro h
    rw [(atDot_iff _).2 h] at h5
    exact absurd h5 (by simp)

/-! ## The loop of `ParseGroup` -/

theorem seekElement_length (name : CStr) (l : List XMLNode) :
    (seekElement name l).length ≤ l.length := by
  induction l with
  | nil => simp [seekElement]
  | cons n rest ih =>
    simp only [seekElement]
    split_ifs
    · exact le_refl _
    · simp only [List.length_cons]
      omega

theorem visited_seekElement (name : CStr) (l : List XMLNode) :
    visited name (seekElement name l) = l.filter (fun n => n.isElementNamed name) := by
  induction l with
  | nil => rfl
  | cons n rest ih =>
    simp only [seekElement]
    by_cases h : n.isElementNamed name = true
    · simp [h, visited]
    · simp [h, ih]

/-- With as many iterations allowed as there are nodes from the pointer on, the
loop of `ParseGroup` ends because the pointer is null, having run its body on
every visited element in order. -/
theorem ParseGroup_loop_eq (group : CStr) (fuel : Nat) (p : NodePtr) (st : Globals)
    (hf : p.length ≤ fuel) :
    ParseGroup.loop group fuel p st =
      some ((visited group p).foldl (fun s n => ParseGroup.body group n s) st) := by
  induction fuel generalizing p st with
  | zero =>
    cases p with
    | nil => simp [ParseGroup.loop, visited]
    | cons e sibs => simp at hf
  | succ n ih =>
    cases p with
    | nil => simp [ParseGroup.loop, visited]
    | cons e sibs =>
      simp only [ParseGroup.loop, NextSiblingElement, List.tail_cons]
      have hl : (seekElement group sibs).length ≤ n := by
        have := seekElement_length group sibs
        simp only [List.length_cons] at hf
        omega
      rw [ih _ _ hl, visited_seekElement]
      simp [visited]

theorem body_eq_record (group : CStr) (elem : XMLNode) (st : Globals) :
    ParseGroup.body group elem st =
      match elem.Attribute "Include".toList with
      | none => st
      | some p => record group st p := by
  simp only [ParseGroup.body]
  cases h : elem.Attribute "Include".toList with
  | none => rfl
  | some p =>
    simp only [record, entryOf, filterOf]
    split_ifs <;> rfl

theorem foldl_body_eq (group : CStr) (nodes : List XMLNode) (st : Globals) :
    nodes.foldl (fun s n => ParseGroup.body group n s) st =
      (includeValues nodes).foldl (record group) st := by
  induction nodes generalizing st with
  | nil => rfl
  | cons n rest ih =>
    rw [List.foldl_cons, ih, body_eq_record]
    unfold includeValues
    rw [List.filterMap_cons]
    cases h : n.Attribute "Include".toList with
    | none => rfl
    | some p => rfl

/-- The function `ParseGroup` in closed form: the key is looked up (and created
when absent), then every `Include` value of the visited elements is recorded. -/
theorem ParseGroup_eq (p : NodePtr) (group : CStr) (st : Globals) :
    ParseGroup p group st =
      (includeValues (visited group p)).foldl (record group)
        { g_filters := st.g_filters, g_files := mapIndex group st.g_files } := by
  simp only [ParseGroup]
  rw [ParseGroup_loop_eq group p.length p _ (le_refl _), foldl_body_eq]

/-! ## The map `g_files` -/

theorem keysOf_mapIndex (k : CStr) (m : List (CStr × List FileEntry)) :
    keysOf (mapIndex k m) = setInsert k (keysOf m) := by
  induction m with
  | nil => rfl
  | cons kv rest ih =>
    obtain ⟨k1, v⟩ := kv
    simp only [mapIndex, keysOf, List.map_cons, setInsert]
    split_ifs
    · rfl
    · simp only [List.map_cons]
      exact congrArg _ ih
    · rfl

theorem keysOf_pushBack (g : CStr) (e : FileEntry) (m : List (CStr × List FileEntry)) :
    keysOf (pushBack g e m) = keysOf m := by
  induction m with
  | nil => rfl
  | cons kv rest ih =>
    obtain ⟨k1, v⟩ := kv
    simp only [pushBack, keysOf, List.map_cons]
    split_ifs
    · rfl
    · simp only [List.map_cons]
      exact congrArg _ ih

theorem filesAt_of_not_mem (g : CStr) (m : List (CStr × List FileEntry))
    (h : g ∉ keysOf m) : filesAt g m = [] := by
  induction m with
  | nil => rfl
  | cons kv rest ih =>
    obtain ⟨k1, v⟩ := kv
    simp only [keysOf, List.map_cons, List.mem_cons, not_or] at h
    have hne : ¬ k1 = g := fun e => h.1 e.symm
    simp only [filesAt, hne, if_false]
    exact ih h.2

theorem filesAt_mapIndex_same (g : CStr) (m : List (CStr × List FileEntry))
    (hs : KeysSorted m) : filesAt g (mapIndex g m) = filesAt g m := by
  induction m with
  | nil => simp [mapIndex, filesAt]
  | cons kv rest ih =>
    obtain ⟨k1, v⟩ := kv
    unfold KeysSorted StrictSorted at hs ih
    simp only [keysOf, List.map_cons, List.pairwise_cons] at hs ih
    simp only [mapIndex]
    split_ifs with h1 h2
    · have hne : ¬ k1 = g := fun e => strLt_ne h1 e.symm
      have hnm : g ∉ keysOf rest := by
        intro hm
        have h3 := strLt_trans h1 (hs.1 g hm)
        rw [strLt_irrefl] at h3
        exact Bool.false_ne_true h3
      simp [filesAt, hne, filesAt_of_not_mem g rest hnm]
    · have hne : ¬ k1 = g := strLt_ne h2
      simp only [filesAt, hne, if_false]
      exact ih hs.2
    · rfl

theorem filesAt_mapIndex_other (g k : CStr) (m : List (CStr × List FileEntry))
    (hne : k ≠ g) : filesAt g (mapIndex k m) = filesAt g m := by
  induction m with
  | nil => simp [mapIndex, filesAt, hne]
  | cons kv rest ih =>
    obtain ⟨k1, v⟩ := kv
    simp only [mapIndex]
    split_ifs
    · simp [filesAt, hne]
    · simp only [filesAt, ih]
    · rfl

theorem filesAt_pushBack_same (g : CStr) (e : FileEntry) (m : List (CStr × List FileEntry))
    (hm : g ∈ keysOf m) : filesAt g (pushBack g e m) = filesAt g m ++ [e] := by
  induction m with
  | nil => simp [keysOf] at hm
  | cons kv rest ih =>
    obtain ⟨k1, v⟩ := kv
    simp only [pushBack]
    by_cases h : k1 = g
    · simp [filesAt, h]
    · simp only [keysOf, List.map_cons, List.mem_cons] at hm
      have hm2 : g ∈ keysOf rest := by
        rcases hm with hm | hm
        · exact absurd hm.symm h
        · exact hm
      simp only [h, if_false, filesAt]
      exact ih hm2

theorem filesAt_pushBack_other (g k : CStr) (e : FileEntry) (m : List (CStr × List FileEntry))
    (hne : k ≠ g) : filesAt g (pushBack k e m) = filesAt g m := by
  induction m with
  | nil => rfl
  | cons kv rest ih =>
    obtain ⟨k1, v⟩ := kv
    simp only [pushBack]
    by_cases h : k1 = k
    · have h2 : ¬ k1 = g := fun e => hne (h.symm.trans e)
      simp [filesAt, h, h2, hne]
    · simp only [h, if_false, filesAt, ih]

/-- A map with distinct keys is determined by its keys and the vectors under
them. -/
theorem map_eq_of_keys (m : List (CStr × List FileEntry)) (hn : (keysOf m).Nodup) :
    m = (keysOf m).map (fun k => (k, filesAt k m)) := by
  induction m with
  | nil => rfl
  | cons kv rest ih =>
    obtain ⟨k1, v⟩ := kv
    simp only [keysOf, List.map_cons, List.nodup_cons] at hn
    simp only [keysOf, List.map_cons, filesAt, if_true]
    congr 1
    conv_lhs => rw [ih hn.2]
    simp only [keysOf]
    apply List.map_congr_left
    intro k hk
    have hne : ¬ k1 = k := fun e => hn.1 (e ▸ hk)
    simp [hne]

/-! ## Recording a list of `Include` values -/

theorem mem_insertAll (names s : List CStr) (y : CStr) :
    y ∈ insertAll names s ↔ y ∈ names ∨ y ∈ s := by
  induction names generalizing s with
  | nil => simp [insertAll]
  | cons x rest ih =>
    have h := ih (setInsert x s)
    simp only [insertAll, List.foldl_cons] at h ⊢
    rw [h, mem_setInsert]
    simp only [List.mem_cons]
    tauto

theorem strictSorted_insertAll (names s : List CStr) (hs : StrictSorted s) :
    StrictSorted (insertAll names s) := by
  induction names generalizing s with
  | nil => exact hs
  | cons x rest ih => exact ih _ (strictSorted_setInsert x s hs)

theorem insertAll_append (a b s : List CStr) :
    insertAll (a ++ b) s = insertAll b (insertAll a s) := by
  simp [insertAll, List.foldl_append]

theorem foldl_record_filters (g : CStr) (ps : List CStr) (st : Globals) :
    (ps.foldl (record g) st).g_filters = insertAll (ps.filterMap filterOf) st.g_filters := by
  induction ps generalizing st with
  | nil => rfl
  | cons p rest ih =>
    rw [List.foldl_cons, ih, List.filterMap_cons]
    cases h : filterOf p with
    | none => simp [record, h]
    | some f => simp [record, h, insertAll]

theorem foldl_record_keys (g : CStr) (ps : List CStr) (st : Globals) :
    keysOf (ps.foldl (record g) st).g_files = keysOf st.g_files := by
  induction ps generalizing st with
  | nil => rfl
  | cons p rest ih =>
    rw [List.foldl_cons, ih]
    simp [record, keysOf_pushBack]

theorem foldl_record_same (g : CStr) (ps : List CStr) (st : Globals)
    (hm : g ∈ keysOf st.g_files) :
    filesAt g (ps.foldl (record g) st).g_files = filesAt g st.g_files ++ ps.map entryOf := by
  induction ps generalizing st with
  | nil => simp
  | cons p rest ih =>
    rw [List.foldl_cons, ih]
    · simp [record, filesAt_pushBack_same g _ _ hm]
    · simpa [record, keysOf_pushBack] using hm

theorem foldl_record_other (g k : CStr) (ps : List CStr) (st : Globals) (hne : k ≠ g) :
    filesAt g (ps.foldl (record k) st).g_files = filesAt g st.g_files := by
  induction ps generalizing st with
  | nil => rfl
  | cons p rest ih =>
    rw [List.foldl_cons, ih]
    simp [record, filesAt_pushBack_other g k _ _ hne]

/-! ## One call of `ParseGroup` -/

theorem ParseGroup_filters (p : NodePtr) (g : CStr) (st : Globals) :
    (ParseGroup p g st).g_filters =
      insertAll ((includeValues (visited g p)).filterMap filterOf) st.g_filters := by
  rw [ParseGroup_eq, foldl_record_filters]

theorem ParseGroup_keys (p : NodePtr) (g : CStr) (st : Globals) :
    keysOf (ParseGroup p g st).g_files = setInsert g (keysOf st.g_files) := by
  rw [ParseGroup_eq, foldl_record_keys, keysOf_mapIndex]

theorem ParseGroup_files_same (p : NodePtr) (g : CStr) (st : Globals)
    (hs : KeysSorted st.g_files) :
    filesAt g (ParseGroup p g st).g_files =
      filesAt g st.g_files ++ (includeValues (visited g p)).map entryOf := by
  rw [ParseGroup_eq, foldl_record_same, filesAt_mapIndex_same g _ hs]
  rw [keysOf_mapIndex, mem_setInsert]
  exact Or.inl rfl

theorem ParseGroup_files_other (p : NodePtr) (g k : CStr) (st : Globals) (hne : k ≠ g) :
    filesAt g (ParseGroup p k st).g_files = filesAt g st.g_files := by
  rw [ParseGroup_eq, foldl_record_other g k _ _ hne, filesAt_mapIndex_other g k _ hne]

theorem ParseGroup_keysSorted (p : NodePtr) (g : CStr) (st : Globals)
    (hs : KeysSorted st.g_files) : KeysSorted (ParseGroup p g st).g_files := by
  unfold KeysSorted at hs ⊢
  rw [ParseGroup_keys]
  exact strictSorted_setInsert g _ hs

theorem ParseGroup_filtersSorted (p : NodePtr) (g : CStr) (st : Globals)
    (hs : StrictSorted st.g_filters) : StrictSorted (ParseGroup p g st).g_filters := by
  rw [ParseGroup_filters]
  exact strictSorted_insertAll _ _ hs

/-! ## One call of `ParseItemGroup` -/

theorem setInsert_of_mem (x : CStr) (s : List CStr) (hs : StrictSorted s) (hx : x ∈ s) :
    setInsert x s = s := by
  induction s with
  | nil => simp at hx
  | cons y ys ih =>
    unfold StrictSorted at hs ih
    rw [List.pairwise_cons] at hs
    simp only [setInsert]
    rcases List.mem_cons.1 hx with rfl | hx
    · simp [strLt_irrefl]
    · have hyx := hs.1 x hx
      have hxy : strLt x y = false := by
        cases h : strLt x y with
        | false => rfl
        | true =>
          have := strLt_trans h hyx
          rw [strLt_irrefl] at this
          exact this.symm
      simp [hxy, hyx, ih hs.2 hx]

theorem ParseItemGroup_labeled (itemGroup : XMLNode) (st : Globals) (label : CStr)
    (h : itemGroup.Attribute "Label".toList = some label) : ParseItemGroup itemGroup st = st := by
  unfold ParseItemGroup
  rw [h]

theorem ParseItemGroup_unlabeled (itemGroup : XMLNode) (st : Globals)
    (h : itemGroup.Attribute "Label".toList = none) :
    ParseItemGroup itemGroup st =
      ParseGroup (FirstChildElement itemGroup "None".toList) "None".toList
        (ParseGroup (FirstChildElement itemGroup "ClInclude".toList) "ClInclude".toList
          (ParseGroup (FirstChildElement itemGroup "ClCompile".toList) "ClCompile".toList st)) := by
  unfold ParseItemGroup
  rw [h]

theorem includes_firstChild (itemGroup : XMLNode) (tag : CStr) :
    includeValues (visited tag (FirstChildElement itemGroup tag)) = tagIncludes tag itemGroup := by
  unfold FirstChildElement tagIncludes
  rw [visited_seekElement]

theorem ParseItemGroup_filters (itemGroup : XMLNode) (st : Globals)
    (h : itemGroup.Attribute "Label".toList = none) :
    (ParseItemGroup itemGroup st).g_filters =
      insertAll ((itemGroupIncludes itemGroup).filterMap filterOf) st.g_filters := by
  rw [ParseItemGroup_unlabeled _ _ h, ParseGroup_filters, ParseGroup_filters, ParseGroup_filters,
    includes_firstChild, includes_firstChild, includes_firstChild]
  unfold itemGroupIncludes
  rw [List.filterMap_append, List.filterMap_append, insertAll_append, insertAll_append]

theorem ParseItemGroup_keys (itemGroup : XMLNode) (st : Globals)
    (h : itemGroup.Attribute "Label".toList = none) :
    keysOf (ParseItemGroup itemGroup st).g_files = withGroupTags (keysOf st.g_files) := by
  rw [ParseItemGroup_unlabeled _ _ h, ParseGroup_keys, ParseGroup_keys, ParseGroup_keys]
  rfl

theorem ParseItemGroup_keysSorted (itemGroup : XMLNode) (st : Globals)
    (hs : KeysSorted st.g_files) : KeysSorted (ParseItemGroup itemGroup st).g_files := by
  cases h : itemGroup.Attribute "Label".toList with
  | some label => rw [ParseItemGroup_labeled _ _ label h]; exact hs
  | none =>
    rw [ParseItemGroup_unlabeled _ _ h]
    exact ParseGroup_keysSorted _ _ _ (ParseGroup_keysSorted _ _ _ (ParseGroup_keysSorted _ _ _ hs))

theorem ParseItemGroup_filtersSorted (itemGroup : XMLNode) (st : Globals)
    (hs : StrictSorted st.g_filters) : StrictSorted (ParseItemGroup itemGroup st).g_filters := by
  cases h : itemGroup.Attribute "Label".toList with
  | some label => rw [ParseItemGroup_labeled _ _ label h]; exact hs
  | none =>
    rw [ParseItemGroup_unlabeled _ _ h]
    exact ParseGroup_filtersSorted _ _ _
      (ParseGroup_filtersSorted _ _ _ (ParseGroup_filtersSorted _ _ _ hs))

theorem ParseItemGroup_files (itemGroup : XMLNode) (st : Globals)
    (h : itemGroup.Attribute "Label".toList = none) (hs : KeysSorted st.g_files)
    (tag : CStr) (ht : tag ∈ groupTags) :
    filesAt tag (ParseItemGroup itemGroup st).g_files =
      filesAt tag st.g_files ++ (tagIncludes tag itemGroup).map entryOf := by
  have hs1 := ParseGroup_keysSorted (FirstChildElement itemGroup "ClCompile".toList)
    "ClCompile".toList st hs
  have hs2 := ParseGroup_keysSorted (FirstChildElement itemGroup "ClInclude".toList)
    "ClInclude".toList _ hs1
  rw [ParseItemGroup_unlabeled _ _ h]
  simp only [groupTags, List.mem_cons, List.mem_singleton, List.not_mem_nil, or_false] at ht
  rcases ht with rfl | rfl | rfl
  · rw [ParseGroup_files_other _ _ _ _ (by decide), ParseGroup_files_other _ _ _ _ (by decide),
      ParseGroup_files_same _ _ _ hs, includes_firstChild]
  · rw [ParseGroup_files_other _ _ _ _ (by decide), ParseGroup_files_same _ _ _ hs1,
      ParseGroup_files_other _ _ _ _ (by decide), includes_firstChild]
  · rw [ParseGroup_files_same _ _ _ hs2, ParseGroup_files_other _ _ _ _ (by decide),
      ParseGroup_files_other _ _ _ _ (by decide), includes_firstChild]

/-! ## The traversal of the document -/

/-- With as many iterations allowed as there are nodes from the pointer on, the
loop of `main` ends because the pointer is null, having called
`ParseItemGroup` on every visited element in order. -/
theorem main_loop_eq (fuel : Nat) (p : NodePtr) (st : Globals) (hf : p.length ≤ fuel) :
    main.loop fuel p st =
      some ((visited "ItemGroup".toList p).foldl (fun s ig => ParseItemGroup ig s) st) := by
  induction fuel generalizing p st with
  | zero =>
    cases p with
    | nil => rfl
    | cons e sibs => simp at hf
  | succ n ih =>
    cases p with
    | nil => rfl
    | cons e sibs =>
      simp only [main.loop, NextSiblingElement, List.tail_cons]
      have hl : (seekElement "ItemGroup".toList sibs).length ≤ n := by
        have := seekElement_length "ItemGroup".toList sibs
        simp only [List.length_cons] at hf
        omega
      rw [ih _ _ hl, visited_seekElement]
      rfl

theorem foldl_ParseItemGroup_filter (igs : List XMLNode) (st : Globals) :
    igs.foldl (fun s ig => ParseItemGroup ig s) st =
      (igs.filter (fun n => (n.Attribute "Label".toList).isNone)).foldl
        (fun s ig => ParseItemGroup ig s) st := by
  induction igs generalizing st with
  | nil => rfl
  | cons ig rest ih =>
    rw [List.foldl_cons, List.filter_cons]
    cases h : ig.Attribute "Label".toList with
    | some label =>
      rw [ParseItemGroup_labeled _ _ label h, ih]
      rfl
    | none =>
      rw [ih]
      rfl

theorem withGroupTags_sorted (keys : List CStr) (hs : StrictSorted keys) :
    StrictSorted (withGroupTags keys) :=
  strictSorted_setInsert _ _ (strictSorted_setInsert _ _ (strictSorted_setInsert _ _ hs))

theorem withGroupTags_idem (keys : List CStr) (hs : StrictSorted keys) :
    withGroupTags (withGroupTags keys) = withGroupTags keys := by
  have h0 := withGroupTags_sorted keys hs
  have m1 : "ClCompile".toList ∈ withGroupTags keys := by
    unfold withGroupTags
    rw [mem_setInsert, mem_setInsert, mem_setInsert]
    exact Or.inr (Or.inr (Or.inl rfl))
  have m2 : "ClInclude".toList ∈ withGroupTags keys := by
    unfold withGroupTags
    rw [mem_setInsert, mem_setInsert]
    exact Or.inr (Or.inl rfl)
  have m3 : "None".toList ∈ withGroupTags keys := by
    unfold withGroupTags
    rw [mem_setInsert]
    exact Or.inl rfl
  show setInsert "None".toList (setInsert "ClInclude".toList
    (setInsert "ClCompile".toList (withGroupTags keys))) = withGroupTags keys
  rw [setInsert_of_mem _ _ h0 m1, setInsert_of_mem _ _ h0 m2, setInsert_of_mem _ _ h0 m3]

/-- The globals after `ParseItemGroup` has run on a list of unlabeled item
groups in order. -/
theorem foldl_ParseItemGroup (igs : List XMLNode) (st : Globals)
    (hu : ∀ ig ∈ igs, ig.Attribute "Label".toList = none) (hs : KeysSorted st.g_files) :
    (igs.foldl (fun s ig => ParseItemGroup ig s) st).g_filters =
        insertAll ((igs.flatMap itemGroupIncludes).filterMap filterOf) st.g_filters ∧
    keysOf (igs.foldl (fun s ig => ParseItemGroup ig s) st).g_files =
        (if igs.isEmpty then keysOf st.g_files else withGroupTags (keysOf st.g_files)) ∧
    ∀ tag ∈ groupTags,
      filesAt tag (igs.foldl (fun s ig => ParseItemGroup ig s) st).g_files =
        filesAt tag st.g_files ++ (igs.flatMap (tagIncludes tag)).map entryOf := by
  induction igs generalizing st with
  | nil => simp [insertAll]
  | cons ig rest ih =>
    have hl : ig.Attribute "Label".toList = none := hu ig (List.mem_cons_self _ _)
    have hs1 := ParseItemGroup_keysSorted ig st hs
    obtain ⟨i1, i2, i3⟩ := ih (ParseItemGroup ig st)
      (fun g hg => hu g (List.mem_cons_of_mem _ hg)) hs1
    rw [List.foldl_cons]
    refine ⟨?_, ?_, ?_⟩
    · rw [i1, ParseItemGroup_filters _ _ hl, List.flatMap_cons, List.filterMap_append,
        insertAll_append]
    · rw [i2, ParseItemGroup_keys _ _ hl]
      cases rest with
      | nil => rfl
      | cons r rs =>
        simp only [List.isEmpty_cons]
        exact withGroupTags_idem _ hs
    · intro tag ht
      rw [i3 tag ht, ParseItemGroup_files _ _ hl hs tag ht, List.flatMap_cons, List.map_append,
        List.append_assoc]

theorem collected_eq (projectGroup : XMLNode) :
    (unlabeledItemGroups projectGroup).foldl (fun s ig => ParseItemGroup ig s) Globals.empty =
      collected projectGroup := by
  have hu : ∀ ig ∈ unlabeledItemGroups projectGroup, ig.Attribute "Label".toList = none := by
    intro ig hig
    unfold unlabeledItemGroups at hig
    have := (List.mem_filter.1 hig).2
    simpa using this
  have hs0 : KeysSorted Globals.empty.g_files := by
    simp [KeysSorted, StrictSorted, keysOf, Globals.empty]
  obtain ⟨h1, h2, h3⟩ := foldl_ParseItemGroup _ Globals.empty hu hs0
  generalize (unlabeledItemGroups projectGroup).foldl (fun s ig => ParseItemGroup ig s)
    Globals.empty = R at h1 h2 h3
  have hk : keysOf R.g_files =
      if (unlabeledItemGroups projectGroup).isEmpty then [] else groupTags := by
    rw [h2]
    split_ifs
    · rfl
    · rfl
  have hfiles : R.g_files =
      if (unlabeledItemGroups projectGroup).isEmpty then []
      else groupTags.map (fun tag => (tag, (docIncludes tag projectGroup).map entryOf)) := by
    have hnd : (keysOf R.g_files).Nodup := by
      rw [hk]
      split_ifs
      · exact List.nodup_nil
      · decide
    rw [map_eq_of_keys R.g_files hnd, hk]
    split_ifs
    · rfl
    · apply List.map_congr_left
      intro tag ht
      rw [h3 tag ht]
      rfl
  cases R with
  | mk fs gs =>
    simp only at h1 hfiles
    simp only [collected, h1, hfiles]
    rfl

/-- The traversal of `main` (lines 140-147) in closed form: when the first node
of the document has a following sibling element `Project`, the traversal
completes with the collected globals. -/
theorem extract_eq (doc : List XMLNode) (projectGroup : XMLNode) (rest : List XMLNode)
    (h : NextSiblingElement doc "Project".toList = projectGroup :: rest) :
    extract doc = some (collected projectGroup) := by
  cases doc with
  | nil => simp [NextSiblingElement, seekElement] at h
  | cons root after =>
    simp only [extract]
    rw [h]
    simp only []
    rw [main_loop_eq _ _ _ (le_refl _)]
    unfold FirstChildElement
    rw [visited_seekElement, foldl_ParseItemGroup_filter]
    exact congrArg some (collected_eq projectGroup)

/-! ## The document the writer describes -/

theorem runPrinter_append (s : PrinterState) (a b : List PrinterCall) :
    runPrinter s (a ++ b) =
      match runPrinter s a with
      | none => none
      | some s1 => runPrinter s1 b := by
  induction a generalizing s with
  | nil => rfl
  | cons c cs ih =>
    simp only [List.cons_append, runPrinter]
    cases printerStep s c with
    | none => rfl
    | some s1 => exact ih s1

theorem runPrinter_filters (names : List CStr) (n : CStr) (at_ : List (CStr × CStr))
    (ch : List XMLNode) (stk : List OpenFrame) (done : List XMLNode) :
    runPrinter { stack := { name := n, attrs := at_, children := ch } :: stk, done := done }
        (MakeFilterFile.filters names) =
      some { stack := { name := n, attrs := at_,
                        children := ch ++ names.map filterElement } :: stk
             done := done } := by
  induction names generalizing ch with
  | nil => simp [MakeFilterFile.filters, runPrinter]
  | cons x rest ih =>
    simp only [MakeFilterFile.filters, List.cons_append, List.nil_append, List.append_eq, runPrinter, printerStep,
      List.isEmpty_nil, if_true, PrinterState.addNode]
    rw [ih]
    simp [filterElement]

theorem runPrinter_entry (itemType : CStr) (e : FileEntry) (n : CStr)
    (at_ : List (CStr × CStr)) (ch : List XMLNode) (stk : List OpenFrame) (done : List XMLNode)
    (rest : List PrinterCall) :
    runPrinter { stack := { name := n, attrs := at_, children := ch } :: stk, done := done }
        (MakeFilterFile.entry itemType e ++ rest) =
      runPrinter { stack := { name := n, attrs := at_,
                              children := ch ++ [entryElement itemType e] } :: stk
                   done := done } rest := by
  unfold MakeFilterFile.entry entryElement
  cases h : e.m_filtername.isEmpty with
  | true =>
    simp only [if_true, List.cons_append, List.nil_append, List.append_eq, List.append_nil, runPrinter,
      printerStep, List.isEmpty_nil, PrinterState.addNode]
  | false =>
    simp only [Bool.false_eq_true, if_false, List.cons_append, List.nil_append, List.append_eq, runPrinter,
      printerStep, List.isEmpty_nil, if_true, PrinterState.addNode]

theorem runPrinter_entries (itemType : CStr) (es : List FileEntry) (n : CStr)
    (at_ : List (CStr × CStr)) (ch : List XMLNode) (stk : List OpenFrame) (done : List XMLNode)
    (rest : List PrinterCall) :
    runPrinter { stack := { name := n, attrs := at_, children := ch } :: stk, done := done }
        (MakeFilterFile.entries itemType es ++ rest) =
      runPrinter { stack := { name := n, attrs := at_,
                              children := ch ++ es.map (entryElement itemType) } :: stk
                   done := done } rest := by
  induction es generalizing ch with
  | nil => simp [MakeFilterFile.entries]
  | cons e more ih =>
    simp only [MakeFilterFile.entries, List.append_assoc]
    rw [runPrinter_entry, ih]
    simp

theorem runPrinter_groups (m : List (CStr × List FileEntry)) (n : CStr)
    (at_ : List (CStr × CStr)) (ch : List XMLNode) (stk : List OpenFrame) (done : List XMLNode)
    (rest : List PrinterCall) :
    runPrinter { stack := { name := n, attrs := at_, children := ch } :: stk, done := done }
        (MakeFilterFile.groups m ++ rest) =
      runPrinter { stack := { name := n, attrs := at_,
                              children := ch ++ groupElements m } :: stk
                   done := done } rest := by
  induction m generalizing ch with
  | nil => simp [MakeFilterFile.groups, groupElements]
  | cons kv more ih =>
    obtain ⟨k, v⟩ := kv
    simp only [MakeFilterFile.groups, List.append_assoc]
    rw [runPrinter_entries, ih]
    simp [groupElements]

/-- The printer calls of `MakeFilterFile` are all allowed, close every element
they open, and describe the document with one `Filter` element per filter name
in the first item group and the entry elements, key by key, in the second. -/
theorem render_calls (st : Globals) :
    render (MakeFilterFile.calls st) =
      some (filtersDocument (st.g_filters.map filterElement) (groupElements st.g_files)) := by
  unfold render MakeFilterFile.calls
  simp only [List.cons_append, List.nil_append, List.append_eq, List.append_assoc, runPrinter, printerStep,
    PrinterState.addNode, if_true, List.isEmpty_nil]
  rw [runPrinter_append, runPrinter_filters]
  simp only [runPrinter, printerStep, PrinterState.addNode, List.nil_append]
  rw [runPrinter_groups]
  simp only [runPrinter, printerStep, PrinterState.addNode, List.nil_append]
  rfl

/-! ## A complete run -/

/-- A run with one argument, a document that loads and has a `Project` element
after its first node, and an output file that opens: `main` returns 0 after
writing the document of the collected globals. -/
theorem main_run (argv0 vcproj : CStr) (doc : List XMLNode) (projectGroup : XMLNode)
    (rest : List XMLNode) (h : NextSiblingElement doc "Project".toList = projectGroup :: rest) :
    main [argv0, vcproj] (some doc) true =
      { exitCode := some 0
        events := [.loadFile vcproj, .fopen (vcproj ++ ".filters".toList),
                   .write (MakeFilterFile.calls (collected projectGroup))]
        globals := collected projectGroup } := by
  unfold main
  rw [if_neg (by simp)]
  simp only [extract_eq doc projectGroup rest h, MakeFilterFile, if_true]
  rfl

theorem main_run_document (argv0 vcproj : CStr) (doc : List XMLNode) (projectGroup : XMLNode)
    (rest : List XMLNode) (h : NextSiblingElement doc "Project".toList = projectGroup :: rest) :
    (main [argv0, vcproj] (some doc) true).document =
      some (filtersDocument ((collected projectGroup).g_filters.map filterElement)
        (groupElements (collected projectGroup).g_files)) := by
  rw [main_run argv0 vcproj doc projectGroup rest h]
  simp only [Outcome.document, Outcome.written, List.findSome?]
  exact render_calls _

theorem storedBy_eq (itemGroup : NodePtr) (group : CStr) (st : Globals)
    (hs : KeysSorted st.g_files) :
    storedBy itemGroup group st = (includeValues (visited group itemGroup)).map entryOf := by
  unfold storedBy
  rw [ParseGroup_files_same _ _ _ hs, List.drop_left]

theorem entryOf_filename (p : CStr) : (entryOf p).m_filename = p := by
  unfold entryOf
  cases filterOf p <;> rfl

theorem entryOf_of_split (p f tail : CStr) (hn : normalize p = f ++ '\\' :: tail)
    (ht : '\\' ∉ tail) : entryOf p = ⟨p, f⟩ := by
  unfold entryOf
  rw [filterOf_of_split p f tail hn ht]

theorem entryOf_of_no_backslash (p : CStr) (hn : '\\' ∉ normalize p) : entryOf p = ⟨p, []⟩ := by
  unfold entryOf
  rw [filterOf_of_no_backslash p hn]

/-! ## The claims about `ParseGroup` -/

/-- C1: a call of `ParseGroup` appends one entry per `Include` value of the
elements it visits, with the value as filename; every appended entry whose
normalized filename splits at its last backslash into `f`, the backslash and
a backslash-free rest has filtername `f`, and `f` is in `g_filters` after the
call. -/
theorem ParseGroup_filtername_before_last_backslash (itemGroup : NodePtr) (group : CStr)
    (st : Globals) (hs : KeysSorted st.g_files) (e : FileEntry) (f tail : CStr)
    (he : e ∈ storedBy itemGroup group st)
    (hn : normalize e.m_filename = f ++ '\\' :: tail) (ht : '\\' ∉ tail) :
    filesAt group (ParseGroup itemGroup group st).g_files =
        filesAt group st.g_files ++ storedBy itemGroup group st ∧
    (storedBy itemGroup group st).map (fun x => x.m_filename) =
        includeValues (visited group itemGroup) ∧
    e.m_filtername = f ∧
    f ∈ (ParseGroup itemGroup group st).g_filters := by
  have hst := storedBy_eq itemGroup group st hs
  refine ⟨?_, ?_, ?_, ?_⟩
  · rw [hst, ParseGroup_files_same _ _ _ hs]
  · rw [hst, List.map_map]
    conv_rhs => rw [← List.map_id (includeValues (visited group itemGroup))]
    apply List.map_congr_left
    intro p _
    exact entryOf_filename p
  · rw [hst] at he
    obtain ⟨p, _, hp⟩ := List.mem_map.1 he
    have hfn : e.m_filename = p := by rw [← hp, entryOf_filename]
    rw [hfn] at hn
    rw [← hp, entryOf_of_split p f tail hn ht]
  · rw [hst] at he
    obtain ⟨p, hpm, hp⟩ := List.mem_map.1 he
    have hfn : e.m_filename = p := by rw [← hp, entryOf_filename]
    rw [hfn] at hn
    rw [ParseGroup_filters, mem_insertAll]
    exact Or.inl (List.mem_filterMap.2 ⟨p, hpm, filterOf_of_split p f tail hn ht⟩)

theorem ParseGroup_filtername_before_last_backslash_witness :
    KeysSorted Globals.empty.g_files ∧
    (⟨"src\\foo\\bar.cpp".toList, "src\\foo".toList⟩ : FileEntry) ∈
      storedBy [.element "ClCompile".toList [("Include".toList, "src\\foo\\bar.cpp".toList)] []]
        "ClCompile".toList Globals.empty ∧
    normalize "src\\foo\\bar.cpp".toList = "src\\foo".toList ++ '\\' :: "bar.cpp".toList ∧
    '\\' ∉ "bar.cpp".toList ∧
    "src\\foo".toList ∈
      (ParseGroup [.element "ClCompile".toList [("Include".toList, "src\\foo\\bar.cpp".toList)] []]
        "ClCompile".toList Globals.empty).g_filters :=
  ⟨List.Pairwise.nil, by decide, by decide, by decide,
    (ParseGroup_filtername_before_last_backslash
      [.element "ClCompile".toList [("Include".toList, "src\\foo\\bar.cpp".toList)] []]
      "ClCompile".toList Globals.empty List.Pairwise.nil
      ⟨"src\\foo\\bar.cpp".toList, "src\\foo".toList⟩ "src\\foo".toList "bar.cpp".toList
      (by decide) (by decide) (by decide)).2.2.2⟩

/-- C2: when the normalized `Include` value of an element holds no backslash,
the loop iteration of `ParseGroup` for it leaves `g_filters` as it is and
appends the entry with that value as filename and the empty filtername; so
does a call of `ParseGroup` on that element alone; and the printer calls the
writer makes for that entry describe an element without any child. -/
theorem ParseGroup_no_backslash (group : CStr) (elem : XMLNode) (st : Globals) (p : CStr)
    (hp : elem.Attribute "Include".toList = some p) (hn : '\\' ∉ normalize p) :
    ParseGroup.body group elem st =
        { g_filters := st.g_filters, g_files := pushBack group ⟨p, []⟩ st.g_files } ∧
    ParseGroup [elem] group st =
        { g_filters := st.g_filters
          g_files := pushBack group ⟨p, []⟩ (mapIndex group st.g_files) } ∧
    render (MakeFilterFile.entry group ⟨p, []⟩) =
        some [.element group [("Include".toList, p)] []] ∧
    entryElement group ⟨p, []⟩ = .element group [("Include".toList, p)] [] := by
  have hb : ∀ s : Globals, ParseGroup.body group elem s =
      { g_filters := s.g_filters, g_files := pushBack group ⟨p, []⟩ s.g_files } := by
    intro s
    rw [body_eq_record, hp]
    simp only [record, filterOf_of_no_backslash p hn, entryOf_of_no_backslash p hn]
  refine ⟨hb st, ?_, rfl, rfl⟩
  rw [ParseGroup_eq]
  simp only [visited, List.filter_nil, includeValues, List.filterMap_cons, List.filterMap_nil]
  rw [hp]
  simp only [List.foldl_cons, List.foldl_nil, record, filterOf_of_no_backslash p hn,
    entryOf_of_no_backslash p hn]

theorem ParseGroup_no_backslash_witness :
    (XMLNode.element "ClCompile".toList [("Include".toList, "bar.cpp".toList)] []).Attribute
        "Include".toList = some "bar.cpp".toList ∧
    '\\' ∉ normalize "bar.cpp".toList ∧
    ParseGroup [.element "ClCompile".toList [("Include".toList, "bar.cpp".toList)] []]
        "ClCompile".toList Globals.empty =
      { g_filters := [], g_files := [("ClCompile".toList, [⟨"bar.cpp".toList, []⟩])] } :=
  ⟨by decide, by decide,
    (ParseGroup_no_backslash "ClCompile".toList
      (.element "ClCompile".toList [("Include".toList, "bar.cpp".toList)] []) Globals.empty
      "bar.cpp".toList (by decide) (by decide)).2.1⟩

/-- C7: `ParseItemGroup` on an element that carries a `Label` attribute, whatever
its value and whatever its children, leaves `g_files` and `g_filters` as they
were. -/
theorem ParseItemGroup_label_is_skipped (itemGroup : XMLNode) (st : Globals) (label : CStr)
    (h : itemGroup.Attribute "Label".toList = some label) :
    (ParseItemGroup itemGroup st).g_files = st.g_files ∧
    (ParseItemGroup itemGroup st).g_filters = st.g_filters := by
  rw [ParseItemGroup_labeled itemGroup st label h]
  exact ⟨rfl, rfl⟩

theorem ParseItemGroup_label_is_skipped_witness :
    (XMLNode.element "ItemGroup".toList [("Label".toList, [])]
        [.element "ClCompile".toList [("Include".toList, "src\\a.cpp".toList)] []]).Attribute
      "Label".toList = some [] ∧
    (ParseItemGroup
        (.element "ItemGroup".toList [("Label".toList, [])]
          [.element "ClCompile".toList [("Include".toList, "src\\a.cpp".toList)] []])
        { g_filters := ["inc".toList]
          g_files := [("ClInclude".toList, [⟨"inc\\b.h".toList, "inc".toList⟩])] }).g_files =
      [("ClInclude".toList, [⟨"inc\\b.h".toList, "inc".toList⟩])] ∧
    (ParseItemGroup
        (.element "ItemGroup".toList [("Label".toList, [])]
          [.element "ClCompile".toList [("Include".toList, "src\\a.cpp".toList)] []])
        { g_filters := ["inc".toList]
          g_files := [("ClInclude".toList, [⟨"inc\\b.h".toList, "inc".toList⟩])] }).g_filters =
      ["inc".toList] :=
  ⟨by decide,
    ParseItemGroup_label_is_skipped
      (.element "ItemGroup".toList [("Label".toList, [])]
        [.element "ClCompile".toList [("Include".toList, "src\\a.cpp".toList)] []])
      { g_filters := ["inc".toList]
        g_files := [("ClInclude".toList, [⟨"inc\\b.h".toList, "inc".toList⟩])] }
      [] (by decide)⟩

/-! ## The two item groups of the output -/

/-- The second item group of the output holds the `ClCompile` elements, then
the `ClInclude` elements, then the `None` elements. -/
theorem groupElements_collected (projectGroup : XMLNode) :
    groupElements (collected projectGroup).g_files =
      tagElements "ClCompile".toList projectGroup ++ tagElements "ClInclude".toList projectGroup
        ++ tagElements "None".toList projectGroup := by
  unfold collected tagElements
  simp only []
  cases h : (unlabeledItemGroups projectGroup).isEmpty with
  | true =>
    have h0 : unlabeledItemGroups projectGroup = [] := List.isEmpty_iff.1 h
    simp [docIncludes, h0, groupElements]
  | false =>
    simp only [Bool.false_eq_true, if_false, groupTags, groupElements, List.map_cons,
      List.map_nil, List.flatMap_cons, List.flatMap_nil, List.append_nil, List.map_map,
      List.append_assoc]
    rfl

theorem mem_itemGroupIncludes (p : CStr) (projectGroup : XMLNode) :
    p ∈ (unlabeledItemGroups projectGroup).flatMap itemGroupIncludes ↔
      ∃ tag ∈ groupTags, p ∈ docIncludes tag projectGroup := by
  simp only [List.mem_flatMap, itemGroupIncludes, List.mem_append, docIncludes, groupTags,
    List.mem_cons, List.mem_singleton, List.not_mem_nil, or_false]
  constructor
  · rintro ⟨ig, hig, (h | h) | h⟩
    · exact ⟨_, Or.inl rfl, ig, hig, h⟩
    · exact ⟨_, Or.inr (Or.inl rfl), ig, hig, h⟩
    · exact ⟨_, Or.inr (Or.inr rfl), ig, hig, h⟩
  · rintro ⟨tag, rfl | rfl | rfl, ig, hig, h⟩
    · exact ⟨ig, hig, Or.inl (Or.inl h)⟩
    · exact ⟨ig, hig, Or.inl (Or.inr h)⟩
    · exact ⟨ig, hig, Or.inr h⟩

/-- The names in `g_filters` after the traversal are exactly the parts before
the last backslash of the normalized `Include` values that hold one. -/
theorem mem_collected_filters (f : CStr) (projectGroup : XMLNode) :
    f ∈ (collected projectGroup).g_filters ↔
      ∃ tag ∈ groupTags, ∃ p ∈ docIncludes tag projectGroup,
        ∃ tail, normalize p = f ++ '\\' :: tail ∧ '\\' ∉ tail := by
  unfold collected
  simp only []
  rw [mem_insertAll, List.mem_filterMap]
  constructor
  · rintro (⟨p, hp, hf⟩ | h)
    · obtain ⟨tag, ht, hm⟩ := (mem_itemGroupIncludes p projectGroup).1 hp
      exact ⟨tag, ht, p, hm, filterOf_some_split p f hf⟩
    · simp at h
  · rintro ⟨tag, ht, p, hm, tail, h1, h2⟩
    exact Or.inl ⟨p, (mem_itemGroupIncludes p projectGroup).2 ⟨tag, ht, hm⟩,
      filterOf_of_split p f tail h1 h2⟩

theorem collected_filters_sorted (projectGroup : XMLNode) :
    StrictSorted (collected projectGroup).g_filters :=
  strictSorted_insertAll _ _ List.Pairwise.nil

/-- When only `ClCompile` items carry `Include` values, the values are recorded
in document order. -/
theorem itemGroupIncludes_of_only_compile (projectGroup : XMLNode)
    (hci : docIncludes "ClInclude".toList projectGroup = [])
    (hno : docIncludes "None".toList projectGroup = []) :
    (unlabeledItemGroups projectGroup).flatMap itemGroupIncludes =
      docIncludes "ClCompile".toList projectGroup := by
  unfold docIncludes at hci hno ⊢
  rw [List.flatMap_eq_nil_iff] at hci hno
  apply List.flatMap_congr
  intro ig hig
  unfold itemGroupIncludes
  rw [hci ig hig, hno ig hig, List.append_nil, List.append_nil]

/-! ## End to end: the written document -/

theorem entryElement_named (tag tag2 : CStr) (e : FileEntry) :
    (entryElement tag e).isElementNamed tag2 = decide (tag = tag2) := rfl

theorem entryElement_include (tag : CStr) (e : FileEntry) :
    (entryElement tag e).Attribute "Include".toList = some e.m_filename := by
  simp [entryElement, XMLNode.Attribute, findAttribute]

theorem tagElements_named (tag : CStr) (projectGroup : XMLNode) :
    ∀ n ∈ tagElements tag projectGroup, n.isElementNamed tag = true := by
  intro n hn
  obtain ⟨p, _, rfl⟩ := List.mem_map.1 hn
  rw [entryElement_named]
  exact decide_eq_true rfl

theorem tagElements_includes (tag : CStr) (projectGroup : XMLNode) :
    (tagElements tag projectGroup).map (fun n => n.Attribute "Include".toList) =
      (docIncludes tag projectGroup).map some := by
  unfold tagElements
  rw [List.map_map]
  apply List.map_congr_left
  intro p _
  show (entryElement tag (entryOf p)).Attribute "Include".toList = some p
  rw [entryElement_include, entryOf_filename]

theorem tagElements_filter (tag tag2 : CStr) (projectGroup : XMLNode) :
    (tagElements tag projectGroup).filter (fun n => n.isElementNamed tag2) =
      if tag = tag2 then tagElements tag projectGroup else [] := by
  split_ifs with h
  · rw [List.filter_eq_self]
    intro n hn
    rw [← h]
    exact tagElements_named tag projectGroup n hn
  · rw [List.filter_eq_nil_iff]
    intro n hn
    obtain ⟨p, _, rfl⟩ := List.mem_map.1 hn
    rw [entryElement_named]
    simpa using h

/-- C3: a run on a document whose only `Include` value in unlabeled item groups
is the value `p` of one `ClCompile` item, where the normalized `p` has the
non-empty part `f` before its last backslash, returns 0 and writes exactly the
declaration and the element `Project` holding a first `ItemGroup` with the
single element `Filter Include=f` and a second `ItemGroup` with the single
element `ClCompile Include=p` whose only child is `Filter` with text `f`. -/
theorem single_compile_item_document (argv0 vcproj : CStr) (doc : List XMLNode)
    (projectGroup : XMLNode) (rest : List XMLNode) (p f tail : CStr)
    (hproj : NextSiblingElement doc "Project".toList = projectGroup :: rest)
    (hcc : docIncludes "ClCompile".toList projectGroup = [p])
    (hci : docIncludes "ClInclude".toList projectGroup = [])
    (hno : docIncludes "None".toList projectGroup = [])
    (hn : normalize p = f ++ '\\' :: tail) (ht : '\\' ∉ tail) (hf : f ≠ []) :
    (main [argv0, vcproj] (some doc) true).exitCode = some 0 ∧
    (main [argv0, vcproj] (some doc) true).document =
      some [.declaration,
        .element "Project".toList
          [("ToolsVersion".toList, "4.0".toList),
           ("xmlns".toList, "http://schemas.microsoft.com/developer/msbuild/2003".toList)]
          [.element "ItemGroup".toList [] [.element "Filter".toList [("Include".toList, f)] []],
           .element "ItemGroup".toList []
             [.element "ClCompile".toList [("Include".toList, p)]
               [.element "Filter".toList [] [.text f]]]]] := by
  refine ⟨by rw [main_run argv0 vcproj doc projectGroup rest hproj], ?_⟩
  rw [main_run_document argv0 vcproj doc projectGroup rest hproj, groupElements_collected]
  have hfl : (collected projectGroup).g_filters = [f] := by
    unfold collected
    simp only []
    rw [itemGroupIncludes_of_only_compile projectGroup hci hno, hcc]
    simp only [List.filterMap_cons, List.filterMap_nil, filterOf_of_split p f tail hn ht]
    rfl
  have hfe : f.isEmpty = false := by
    cases f with
    | nil => exact absurd rfl hf
    | cons c t => rfl
  rw [hfl]
  unfold tagElements
  rw [hcc, hci, hno]
  simp only [List.map_cons, List.map_nil, List.append_nil, entryOf_of_split p f tail hn ht,
    entryElement, hfe, filterElement, filtersDocument, projectAttributes]
  rfl

theorem single_compile_item_document_witness :
    NextSiblingElement
        [.declaration,
         .element "Project".toList []
           [.element "ItemGroup".toList []
             [.element "ClCompile".toList [("Include".toList, "src\\foo\\bar.cpp".toList)] []]]]
        "Project".toList =
      [.element "Project".toList []
        [.element "ItemGroup".toList []
          [.element "ClCompile".toList [("Include".toList, "src\\foo\\bar.cpp".toList)] []]]] ∧
    normalize "src\\foo\\bar.cpp".toList = "src\\foo".toList ++ '\\' :: "bar.cpp".toList ∧
    (main ["vcproj2filter".toList, "my.vcxproj".toList]
        (some [.declaration,
          .element "Project".toList []
            [.element "ItemGroup".toList []
              [.element "ClCompile".toList [("Include".toList, "src\\foo\\bar.cpp".toList)] []]]])
        true).document =
      some [.declaration,
        .element "Project".toList
          [("ToolsVersion".toList, "4.0".toList),
           ("xmlns".toList, "http://schemas.microsoft.com/developer/msbuild/2003".toList)]
          [.element "ItemGroup".toList []
            [.element "Filter".toList [("Include".toList, "src\\foo".toList)] []],
           .element "ItemGroup".toList []
             [.element "ClCompile".toList [("Include".toList, "src\\foo\\bar.cpp".toList)]
               [.element "Filter".toList [] [.text "src\\foo".toList]]]]] :=
  ⟨rfl, by decide,
    (single_compile_item_document "vcproj2filter".toList "my.vcxproj".toList
      [.declaration,
       .element "Project".toList []
         [.element "ItemGroup".toList []
           [.element "ClCompile".toList [("Include".toList, "src\\foo\\bar.cpp".toList)] []]]]
      (.element "Project".toList []
        [.element "ItemGroup".toList []
          [.element "ClCompile".toList [("Include".toList, "src\\foo\\bar.cpp".toList)] []]])
      [] "src\\foo\\bar.cpp".toList "src\\foo".toList "bar.cpp".toList
      rfl (by decide) (by decide) (by decide) (by decide) (by decide) (by decide)).2⟩

/-- C4, as stated, fails: for an input that lists a `ClInclude` item before a
`ClCompile` item, the second item group of the written document holds the
`ClCompile` element first, not the `ClInclude` element. -/
theorem output_group_order_counterexample :
    (main ["vcproj2filter".toList, "my.vcxproj".toList]
        (some [.declaration,
          .element "Project".toList []
            [.element "ItemGroup".toList []
              [.element "ClInclude".toList [("Include".toList, "a.h".toList)] [],
               .element "ClCompile".toList [("Include".toList, "b.cpp".toList)] []]]])
        true).document =
      some (filtersDocument []
        [.element "ClCompile".toList [("Include".toList, "b.cpp".toList)] [],
         .element "ClInclude".toList [("Include".toList, "a.h".toList)] []]) ∧
    (main ["vcproj2filter".toList, "my.vcxproj".toList]
        (some [.declaration,
          .element "Project".toList []
            [.element "ItemGroup".toList []
              [.element "ClInclude".toList [("Include".toList, "a.h".toList)] [],
               .element "ClCompile".toList [("Include".toList, "b.cpp".toList)] []]]])
        true).document ≠
      some (filtersDocument []
        [.element "ClInclude".toList [("Include".toList, "a.h".toList)] [],
         .element "ClCompile".toList [("Include".toList, "b.cpp".toList)] []]) := by
  have h : (main ["vcproj2filter".toList, "my.vcxproj".toList]
        (some [.declaration,
          .element "Project".toList []
            [.element "ItemGroup".toList []
              [.element "ClInclude".toList [("Include".toList, "a.h".toList)] [],
               .element "ClCompile".toList [("Include".toList, "b.cpp".toList)] []]]])
        true).document =
      some (filtersDocument []
        [.element "ClCompile".toList [("Include".toList, "b.cpp".toList)] [],
         .element "ClInclude".toList [("Include".toList, "a.h".toList)] []]) := rfl
  refine ⟨h, ?_⟩
  rw [h]
  intro hh
  simp [filtersDocument] at hh

/-- C4, amended: the second item group of the written document holds the
elements group by group in the fixed order `ClCompile`, `ClInclude`, `None`
(the key order of `g_files`), whatever the order of the tags in the input;
within a group the elements carry the `Include` values of the items of that
tag in document order. -/
theorem output_groups_in_key_order (argv0 vcproj : CStr) (doc : List XMLNode)
    (projectGroup : XMLNode) (rest : List XMLNode)
    (hproj : NextSiblingElement doc "Project".toList = projectGroup :: rest) :
    ∃ first compile incl none,
      (main [argv0, vcproj] (some doc) true).document =
        some (filtersDocument first (compile ++ incl ++ none)) ∧
      (∀ n ∈ compile, n.isElementNamed "ClCompile".toList = true) ∧
      (∀ n ∈ incl, n.isElementNamed "ClInclude".toList = true) ∧
      (∀ n ∈ none, n.isElementNamed "None".toList = true) ∧
      compile.map (fun n => n.Attribute "Include".toList) =
        (docIncludes "ClCompile".toList projectGroup).map some ∧
      incl.map (fun n => n.Attribute "Include".toList) =
        (docIncludes "ClInclude".toList projectGroup).map some ∧
      none.map (fun n => n.Attribute "Include".toList) =
        (docIncludes "None".toList projectGroup).map some := by
  refine ⟨(collected projectGroup).g_filters.map filterElement,
    tagElements "ClCompile".toList projectGroup,
    tagElements "ClInclude".toList projectGroup, tagElements "None".toList projectGroup,
    ?_, tagElements_named _ _, tagElements_named _ _, tagElements_named _ _,
    tagElements_includes _ _, tagElements_includes _ _, tagElements_includes _ _⟩
  rw [main_run_document argv0 vcproj doc projectGroup rest hproj, groupElements_collected]

theorem output_groups_in_key_order_witness :
    ∃ first compile incl none,
      (main ["vcproj2filter".toList, "my.vcxproj".toList]
          (some [.declaration,
            .element "Project".toList []
              [.element "ItemGroup".toList []
                [.element "None".toList [("Include".toList, "readme.txt".toList)] [],
                 .element "ClInclude".toList [("Include".toList, "inc\\a.h".toList)] [],
                 .element "ClCompile".toList [("Include".toList, "src\\b.cpp".toList)] []]]])
          true).document =
        some (filtersDocument first (compile ++ incl ++ none)) ∧
      (∀ n ∈ compile, n.isElementNamed "ClCompile".toList = true) ∧
      (∀ n ∈ incl, n.isElementNamed "ClInclude".toList = true) ∧
      (∀ n ∈ none, n.isElementNamed "None".toList = true) ∧
      compile.map (fun n => n.Attribute "Include".toList) = [some "src\\b.cpp".toList] ∧
      incl.map (fun n => n.Attribute "Include".toList) = [some "inc\\a.h".toList] ∧
      none.map (fun n => n.Attribute "Include".toList) = [some "readme.txt".toList] :=
  output_groups_in_key_order "vcproj2filter".toList "my.vcxproj".toList
    [.declaration,
     .element "Project".toList []
       [.element "ItemGroup".toList []
         [.element "None".toList [("Include".toList, "readme.txt".toList)] [],
          .element "ClInclude".toList [("Include".toList, "inc\\a.h".toList)] [],
          .element "ClCompile".toList [("Include".toList, "src\\b.cpp".toList)] []]]]
    (.element "Project".toList []
       [.element "ItemGroup".toList []
         [.element "None".toList [("Include".toList, "readme.txt".toList)] [],
          .element "ClInclude".toList [("Include".toList, "inc\\a.h".toList)] [],
          .element "ClCompile".toList [("Include".toList, "src\\b.cpp".toList)] []]])
    [] rfl

/-- C5: for each of the tags `ClCompile`, `ClInclude` and `None`, the `Include`
values of the elements of that tag in the second item group of the written
document are, in order and verbatim, the `Include` values of the children of
that tag that carry the attribute, over the unlabeled `ItemGroup` children of
the project element in document order. -/
theorem output_includes_verbatim (argv0 vcproj : CStr) (doc : List XMLNode)
    (projectGroup : XMLNode) (rest : List XMLNode) (tag : CStr)
    (hproj : NextSiblingElement doc "Project".toList = projectGroup :: rest)
    (htag : tag ∈ groupTags) :
    ∃ first second,
      (main [argv0, vcproj] (some doc) true).document = some (filtersDocument first second) ∧
      (second.filter (fun n => n.isElementNamed tag)).map (fun n => n.Attribute "Include".toList) =
        ((unlabeledItemGroups projectGroup).flatMap (fun itemGroup =>
          (itemGroup.childNodes.filter (fun n => n.isElementNamed tag)).filterMap
            (fun n => n.Attribute "Include".toList))).map some := by
  refine ⟨(collected projectGroup).g_filters.map filterElement,
    groupElements (collected projectGroup).g_files,
    main_run_document argv0 vcproj doc projectGroup rest hproj, ?_⟩
  rw [groupElements_collected, List.filter_append, List.filter_append, tagElements_filter,
    tagElements_filter, tagElements_filter]
  simp only [groupTags, List.mem_cons, List.mem_singleton, List.not_mem_nil, or_false] at htag
  rcases htag with rfl | rfl | rfl
  · rw [if_pos rfl, if_neg (by decide), if_neg (by decide), List.append_nil, List.append_nil]
    exact tagElements_includes _ _
  · rw [if_neg (by decide), if_pos rfl, if_neg (by decide), List.nil_append, List.append_nil]
    exact tagElements_includes _ _
  · rw [if_neg (by decide), if_neg (by decide), if_pos rfl, List.nil_append, List.nil_append]
    exact tagElements_includes _ _

theorem output_includes_verbatim_witness :
    ∃ first second,
      (main ["vcproj2filter".toList, "my.vcxproj".toList]
          (some [.declaration,
            .element "Project".toList []
              [.element "ItemGroup".toList []
                [.element "ClCompile".toList [("Include".toList, "a.cpp".toList)] [],
                 .element "ClCompile".toList [] [],
                 .text "x".toList,
                 .element "ClInclude".toList [("Include".toList, "a.h".toList)] [],
                 .element "ClCompile".toList [("Include".toList, "..\\b.cpp".toList)] []],
               .element "ItemGroup".toList [("Label".toList, "L".toList)]
                [.element "ClCompile".toList [("Include".toList, "c.cpp".toList)] []],
               .element "ItemGroup".toList []
                [.element "ClCompile".toList [("Include".toList, "d.cpp".toList)] []]]])
          true).document = some (filtersDocument first second) ∧
      (second.filter (fun n => n.isElementNamed "ClCompile".toList)).map
          (fun n => n.Attribute "Include".toList) =
        [some "a.cpp".toList, some "..\\b.cpp".toList, some "d.cpp".toList] :=
  output_includes_verbatim "vcproj2filter".toList "my.vcxproj".toList
    [.declaration,
     .element "Project".toList []
       [.element "ItemGroup".toList []
         [.element "ClCompile".toList [("Include".toList, "a.cpp".toList)] [],
          .element "ClCompile".toList [] [],
          .text "x".toList,
          .element "ClInclude".toList [("Include".toList, "a.h".toList)] [],
          .element "ClCompile".toList [("Include".toList, "..\\b.cpp".toList)] []],
        .element "ItemGroup".toList [("Label".toList, "L".toList)]
         [.element "ClCompile".toList [("Include".toList, "c.cpp".toList)] []],
        .element "ItemGroup".toList []
         [.element "ClCompile".toList [("Include".toList, "d.cpp".toList)] []]]]
    (.element "Project".toList []
       [.element "ItemGroup".toList []
         [.element "ClCompile".toList [("Include".toList, "a.cpp".toList)] [],
          .element "ClCompile".toList [] [],
          .text "x".toList,
          .element "ClInclude".toList [("Include".toList, "a.h".toList)] [],
          .element "ClCompile".toList [("Include".toList, "..\\b.cpp".toList)] []],
        .element "ItemGroup".toList [("Label".toList, "L".toList)]
         [.element "ClCompile".toList [("Include".toList, "c.cpp".toList)] []],
        .element "ItemGroup".toList []
         [.element "ClCompile".toList [("Include".toList, "d.cpp".toList)] []]])
    [] "ClCompile".toList rfl (by decide)

/-- C6: the first item group of the written document consists of `Filter`
elements without children, one per name of a list that is strictly increasing
in the order of `std::string` and hence free of duplicates; the names are
exactly the parts before the last backslash of the normalized `Include`
values that hold a backslash, that is, the names registered during the
traversal. -/
theorem output_filters_sorted_distinct (argv0 vcproj : CStr) (doc : List XMLNode)
    (projectGroup : XMLNode) (rest : List XMLNode)
    (hproj : NextSiblingElement doc "Project".toList = projectGroup :: rest) :
    ∃ (names : List CStr) (second : List XMLNode),
      (main [argv0, vcproj] (some doc) true).document =
        some (filtersDocument
          (names.map (fun name => .element "Filter".toList [("Include".toList, name)] []))
          second) ∧
      names.Pairwise (fun a b => strLt a b = true) ∧
      names.Nodup ∧
      ∀ f, f ∈ names ↔
        ∃ tag ∈ groupTags, ∃ p ∈ docIncludes tag projectGroup,
          ∃ tail, normalize p = f ++ '\\' :: tail ∧ '\\' ∉ tail :=
  ⟨(collected projectGroup).g_filters, groupElements (collected projectGroup).g_files,
    main_run_document argv0 vcproj doc projectGroup rest hproj,
    collected_filters_sorted projectGroup,
    strictSorted_nodup (collected_filters_sorted projectGroup),
    fun f => mem_collected_filters f projectGroup⟩

theorem output_filters_sorted_distinct_witness :
    ∃ (names : List CStr) (second : List XMLNode),
      (main ["vcproj2filter".toList, "my.vcxproj".toList]
          (some [.declaration,
            .element "Project".toList []
              [.element "ItemGroup".toList []
                [.element "ClCompile".toList [("Include".toList, "src\\b.cpp".toList)] [],
                 .element "ClCompile".toList [("Include".toList, "inc\\x.cpp".toList)] [],
                 .element "ClInclude".toList [("Include".toList, "src\\a.h".toList)] [],
                 .element "None".toList [("Include".toList, "readme.txt".toList)] []]]])
          true).document =
        some (filtersDocument
          (names.map (fun name => .element "Filter".toList [("Include".toList, name)] []))
          second) ∧
      names.Pairwise (fun a b => strLt a b = true) ∧
      names.Nodup ∧
      ∀ f, f ∈ names ↔
        ∃ tag ∈ groupTags,
          ∃ p ∈ docIncludes tag
              (.element "Project".toList []
                [.element "ItemGroup".toList []
                  [.element "ClCompile".toList [("Include".toList, "src\\b.cpp".toList)] [],
                   .element "ClCompile".toList [("Include".toList, "inc\\x.cpp".toList)] [],
                   .element "ClInclude".toList [("Include".toList, "src\\a.h".toList)] [],
                   .element "None".toList [("Include".toList, "readme.txt".toList)] []]]),
            ∃ tail, normalize p = f ++ '\\' :: tail ∧ '\\' ∉ tail :=
  output_filters_sorted_distinct "vcproj2filter".toList "my.vcxproj".toList
    [.declaration,
     .element "Project".toList []
       [.element "ItemGroup".toList []
         [.element "ClCompile".toList [("Include".toList, "src\\b.cpp".toList)] [],
          .element "ClCompile".toList [("Include".toList, "inc\\x.cpp".toList)] [],
          .element "ClInclude".toList [("Include".toList, "src\\a.h".toList)] [],
          .element "None".toList [("Include".toList, "readme.txt".toList)] []]]]
    (.element "Project".toList []
       [.element "ItemGroup".toList []
         [.element "ClCompile".toList [("Include".toList, "src\\b.cpp".toList)] [],
          .element "ClCompile".toList [("Include".toList, "inc\\x.cpp".toList)] [],
          .element "ClInclude".toList [("Include".toList, "src\\a.h".toList)] [],
          .element "None".toList [("Include".toList, "readme.txt".toList)] []]])
    [] rfl

/-! ## The invariant that filter names are registered -/

theorem mem_pushBack (g : CStr) (e : FileEntry) (m : List (CStr × List FileEntry))
    (kv : CStr × List FileEntry) (h : kv ∈ pushBack g e m) :
    kv ∈ m ∨ ∃ v, (g, v) ∈ m ∧ kv = (g, v ++ [e]) := by
  induction m with
  | nil => simp [pushBack] at h
  | cons kv1 rest ih =>
    obtain ⟨k1, v1⟩ := kv1
    simp only [pushBack] at h
    by_cases hk : k1 = g
    · simp only [hk, if_true, List.mem_cons] at h
      rcases h with h | h
      · exact Or.inr ⟨v1, by simp [hk], h⟩
      · exact Or.inl (List.mem_cons_of_mem _ h)
    · simp only [hk, if_false, List.mem_cons] at h
      rcases h with h | h
      · exact Or.inl (by simp [h])
      · rcases ih h with h2 | ⟨v, hv, h2⟩
        · exact Or.inl (List.mem_cons_of_mem _ h2)
        · exact Or.inr ⟨v, List.mem_cons_of_mem _ hv, h2⟩

theorem mem_mapIndex (g : CStr) (m : List (CStr × List FileEntry))
    (kv : CStr × List FileEntry) (h : kv ∈ mapIndex g m) : kv ∈ m ∨ kv = (g, []) := by
  induction m with
  | nil =>
    simp only [mapIndex, List.mem_singleton] at h
    exact Or.inr h
  | cons kv1 rest ih =>
    obtain ⟨k1, v1⟩ := kv1
    simp only [mapIndex] at h
    split_ifs at h
    · rcases List.mem_cons.1 h with h | h
      · exact Or.inr h
      · exact Or.inl h
    · rcases List.mem_cons.1 h with h | h
      · exact Or.inl (by simp [h])
      · rcases ih h with h2 | h2
        · exact Or.inl (List.mem_cons_of_mem _ h2)
        · exact Or.inr h2
    · exact Or.inl h

theorem record_filters_mono (g : CStr) (st : Globals) (p x : CStr) (hx : x ∈ st.g_filters) :
    x ∈ (record g st p).g_filters := by
  unfold record
  cases filterOf p with
  | none => exact hx
  | some f => exact (mem_setInsert f x _).2 (Or.inr hx)

theorem entryOf_registered (g : CStr) (st : Globals) (p : CStr)
    (hne : (entryOf p).m_filtername ≠ []) :
    (entryOf p).m_filtername ∈ (record g st p).g_filters := by
  unfold entryOf record at *
  cases h : filterOf p with
  | none => rw [h] at hne; exact absurd rfl hne
  | some f => exact (mem_setInsert f f _).2 (Or.inl rfl)

theorem record_registered (g : CStr) (st : Globals) (p : CStr)
    (h : FilternamesRegistered st) : FilternamesRegistered (record g st p) := by
  intro kv hkv e he hne
  have hkv2 : kv ∈ pushBack g (entryOf p) st.g_files := hkv
  rcases mem_pushBack g (entryOf p) st.g_files kv hkv2 with h1 | ⟨v, hv, rfl⟩
  · exact record_filters_mono g st p _ (h kv h1 e he hne)
  · rcases List.mem_append.1 he with h2 | h2
    · exact record_filters_mono g st p _ (h (g, v) hv e h2 hne)
    · rw [List.mem_singleton] at h2
      subst h2
      exact entryOf_registered g st p hne

theorem foldl_record_registered (g : CStr) (ps : List CStr) (st : Globals)
    (h : FilternamesRegistered st) : FilternamesRegistered (ps.foldl (record g) st) := by
  induction ps generalizing st with
  | nil => exact h
  | cons p rest ih => exact ih _ (record_registered g st p h)

theorem ParseGroup_registered (itemGroup : NodePtr) (g : CStr) (st : Globals)
    (h : FilternamesRegistered st) : FilternamesRegistered (ParseGroup itemGroup g st) := by
  rw [ParseGroup_eq]
  apply foldl_record_registered
  intro kv hkv e he hne
  rcases mem_mapIndex g st.g_files kv hkv with h1 | rfl
  · exact h kv h1 e he hne
  · simp at he

theorem ParseItemGroup_registered (itemGroup : XMLNode) (st : Globals)
    (h : FilternamesRegistered st) : FilternamesRegistered (ParseItemGroup itemGroup st) := by
  cases hl : itemGroup.Attribute "Label".toList with
  | some label => rw [ParseItemGroup_labeled _ _ label hl]; exact h
  | none =>
    rw [ParseItemGroup_unlabeled _ _ hl]
    exact ParseGroup_registered _ _ _ (ParseGroup_registered _ _ _ (ParseGroup_registered _ _ _ h))

theorem reachable_registered (st : Globals) (h : Reachable st) : FilternamesRegistered st := by
  induction h with
  | empty =>
    intro kv hkv
    simp [Globals.empty] at hkv
  | parseItemGroup st ig _ ih => exact ParseItemGroup_registered ig st ih
  | parseGroup st p g _ ih => exact ParseGroup_registered p g st ih

/-- C8: in every state reachable from the empty state by calls of
`ParseItemGroup` and `ParseGroup`, every stored entry with a non-empty
filtername has that name in `g_filters`; hence in the document the writer
describes for such a state, the text of every `Filter` child of an element of
the second item group is the `Include` value of a `Filter` element of the
first item group. -/
theorem filtername_is_registered (st : Globals) (h : Reachable st) :
    (∀ kv ∈ st.g_files, ∀ e ∈ kv.2, e.m_filtername ≠ [] → e.m_filtername ∈ st.g_filters) ∧
    ∃ first second,
      render (MakeFilterFile.calls st) = some (filtersDocument first second) ∧
      ∀ elem ∈ second, ∀ child ∈ elem.childNodes, child.isElementNamed "Filter".toList = true →
        ∀ t, XMLNode.text t ∈ child.childNodes →
          ∃ fe ∈ first, fe.isElementNamed "Filter".toList = true ∧
            fe.Attribute "Include".toList = some t := by
  have hinv := reachable_registered st h
  refine ⟨hinv, st.g_filters.map filterElement, groupElements st.g_files, render_calls st, ?_⟩
  intro elem helem child hchild _ t ht
  unfold groupElements at helem
  obtain ⟨kv, hkv, hmem⟩ := List.mem_flatMap.1 helem
  obtain ⟨e, he, rfl⟩ := List.mem_map.1 hmem
  cases hem : e.m_filtername.isEmpty with
  | true => simp [entryElement, XMLNode.childNodes, hem] at hchild
  | false =>
    simp only [entryElement, XMLNode.childNodes, hem, Bool.false_eq_true, if_false,
      List.mem_singleton] at hchild
    subst hchild
    simp only [XMLNode.childNodes, List.mem_singleton, XMLNode.text.injEq] at ht
    subst ht
    have hne : e.m_filtername ≠ [] := by
      intro h0
      rw [h0] at hem
      simp at hem
    refine ⟨filterElement e.m_filtername, List.mem_map.2 ⟨_, hinv kv hkv e he hne, rfl⟩, rfl, ?_⟩
    simp [filterElement, XMLNode.Attribute, findAttribute]

theorem filtername_is_registered_witness :
    Reachable (ParseGroup
        [.element "ClCompile".toList [("Include".toList, ".\\src\\a.cpp".toList)] []]
        "ClCompile".toList Globals.empty) ∧
    ∀ kv ∈ (ParseGroup
        [.element "ClCompile".toList [("Include".toList, ".\\src\\a.cpp".toList)] []]
        "ClCompile".toList Globals.empty).g_files,
      ∀ e ∈ kv.2, e.m_filtername ≠ [] →
        e.m_filtername ∈ (ParseGroup
          [.element "ClCompile".toList [("Include".toList, ".\\src\\a.cpp".toList)] []]
          "ClCompile".toList Globals.empty).g_filters :=
  ⟨Reachable.parseGroup _ _ _ Reachable.empty,
    (filtername_is_registered _ (Reachable.parseGroup Globals.empty
      [.element "ClCompile".toList [("Include".toList, ".\\src\\a.cpp".toList)] []]
      "ClCompile".toList Reachable.empty)).1⟩

/-! ## The filenames of the stored entries -/

theorem main_globals (argv0 vcproj : CStr) (doc : List XMLNode) (projectGroup : XMLNode)
    (rest : List XMLNode) (fopenOk : Bool)
    (h : NextSiblingElement doc "Project".toList = projectGroup :: rest) :
    (main [argv0, vcproj] (some doc) fopenOk).globals = collected projectGroup := by
  unfold main
  rw [if_neg (by simp)]
  simp only [extract_eq doc projectGroup rest h, MakeFilterFile]
  cases fopenOk <;> rfl

/-- C9, as stated, fails: an item whose `Include` attribute is present with the
empty string as value is stored, with the empty filename. -/
theorem stored_filename_empty_counterexample :
    (main ["vcproj2filter".toList, "my.vcxproj".toList]
        (some [.declaration,
          .element "Project".toList []
            [.element "ItemGroup".toList []
              [.element "ClCompile".toList [("Include".toList, [])] []]]])
        true).globals.g_files =
      [("ClCompile".toList, [⟨[], []⟩]), ("ClInclude".toList, []), ("None".toList, [])] ∧
    ¬ ∀ kv ∈ (main ["vcproj2filter".toList, "my.vcxproj".toList]
        (some [.declaration,
          .element "Project".toList []
            [.element "ItemGroup".toList []
              [.element "ClCompile".toList [("Include".toList, [])] []]]])
        true).globals.g_files, ∀ e ∈ kv.2, e.m_filename ≠ [] := by
  constructor
  · decide
  · decide

/-- C9, amended: after the traversal of any document, every entry stored in
`g_files` sits under one of the three tags and has as filename the verbatim
value of an `Include` attribute present on an item of that tag in an unlabeled
item group; so the filename is non-empty unless that attribute value is the
empty string. -/
theorem stored_filename_is_include_value (argv0 vcproj : CStr) (doc : List XMLNode)
    (projectGroup : XMLNode) (rest : List XMLNode) (fopenOk : Bool)
    (hproj : NextSiblingElement doc "Project".toList = projectGroup :: rest) :
    (∀ kv ∈ (main [argv0, vcproj] (some doc) fopenOk).globals.g_files,
      kv.1 ∈ groupTags ∧ ∀ e ∈ kv.2, e.m_filename ∈ docIncludes kv.1 projectGroup) ∧
    ((∀ tag ∈ groupTags, [] ∉ docIncludes tag projectGroup) →
      ∀ kv ∈ (main [argv0, vcproj] (some doc) fopenOk).globals.g_files,
        ∀ e ∈ kv.2, e.m_filename ≠ []) := by
  have hmain : ∀ kv ∈ (main [argv0, vcproj] (some doc) fopenOk).globals.g_files,
      kv.1 ∈ groupTags ∧ ∀ e ∈ kv.2, e.m_filename ∈ docIncludes kv.1 projectGroup := by
    rw [main_globals argv0 vcproj doc projectGroup rest fopenOk hproj]
    intro kv hkv
    unfold collected at hkv
    simp only [] at hkv
    split_ifs at hkv
    · simp at hkv
    · obtain ⟨tag, htag, rfl⟩ := List.mem_map.1 hkv
      refine ⟨htag, ?_⟩
      intro e he
      obtain ⟨p, hp, rfl⟩ := List.mem_map.1 he
      rw [entryOf_filename]
      exact hp
  refine ⟨hmain, ?_⟩
  intro hne kv hkv e he h0
  obtain ⟨h1, h2⟩ := hmain kv hkv
  have := h2 e he
  rw [h0] at this
  exact hne kv.1 h1 this

theorem stored_filename_is_include_value_witness :
    (∀ tag ∈ groupTags, [] ∉ docIncludes tag
        (.element "Project".toList []
          [.element "ItemGroup".toList []
            [.element "ClCompile".toList [("Include".toList, "src\\a.cpp".toList)] [],
             .element "ClInclude".toList [] []]])) ∧
    ∀ kv ∈ (main ["vcproj2filter".toList, "my.vcxproj".toList]
        (some [.declaration,
          .element "Project".toList []
            [.element "ItemGroup".toList []
              [.element "ClCompile".toList [("Include".toList, "src\\a.cpp".toList)] [],
               .element "ClInclude".toList [] []]]])
        false).globals.g_files, ∀ e ∈ kv.2, e.m_filename ≠ [] :=
  ⟨by decide,
    (stored_filename_is_include_value "vcproj2filter".toList "my.vcxproj".toList
      [.declaration,
       .element "Project".toList []
         [.element "ItemGroup".toList []
           [.element "ClCompile".toList [("Include".toList, "src\\a.cpp".toList)] [],
            .element "ClInclude".toList [] []]]]
      (.element "Project".toList []
         [.element "ItemGroup".toList []
           [.element "ClCompile".toList [("Include".toList, "src\\a.cpp".toList)] [],
            .element "ClInclude".toList [] []]])
      [] false rfl).2 (by decide)⟩

/-! ## Paths of dots and backslashes, and paths behind a leading dot and backslash -/

theorem adjacentBackslashes_suffix (pre r : CStr) (h : adjacentBackslashes (pre ++ r) = false) :
    adjacentBackslashes r = false := by
  induction pre with
  | nil => exact h
  | cons a t ih =>
    apply ih
    cases hq : t ++ r with
    | nil => rfl
    | cons b u =>
      rw [List.cons_append, hq] at h
      simp only [adjacentBackslashes, Bool.or_eq_false_iff] at h
      exact h.2

theorem stripLoop_dots_backslashes (fuel : Nat) (s : CStr) (hf : s.length < fuel)
    (hs : ∀ c ∈ s, c = '.' ∨ c = '\\') (ha : adjacentBackslashes s = false) :
    stripLoop fuel s = some [] := by
  induction fuel generalizing s with
  | zero => omega
  | succ n ih =>
    obtain ⟨pre, hpre, _⟩ := skipDots_suffix s
    have hnd := atDot_skipDots s
    simp only [stripLoop]
    cases h1 : skipDots s with
    | nil => rfl
    | cons c t =>
      rw [h1] at hpre hnd
      have hc : c = '\\' := by
        have hcs : c ∈ s := by rw [hpre]; simp
        rcases hs c hcs with h | h
        · simp [atDot, h] at hnd
        · exact h
      subst hc
      simp only [skipSlash, if_true]
      cases t with
      | nil => rfl
      | cons d u =>
        have ha2 : adjacentBackslashes ('\\' :: d :: u) = false := by
          rw [hpre] at ha
          exact adjacentBackslashes_suffix pre _ ha
        have hd : d = '.' := by
          have hds : d ∈ s := by rw [hpre]; simp
          rcases hs d hds with h | h
          · exact h
          · simp [adjacentBackslashes, h] at ha2
        have hlen : (d :: u).length < n := by
          have : s.length = pre.length + ('\\' :: d :: u).length := by
            conv_lhs => rw [hpre]
            simp
          simp only [List.length_cons] at this ⊢
          omega
        have hs2 : ∀ x ∈ d :: u, x = '.' ∨ x = '\\' := by
          intro x hx
          apply hs x
          rw [hpre]
          exact List.mem_append_right _ (List.mem_cons_of_mem _ hx)
        have ha3 : adjacentBackslashes (d :: u) = false :=
          adjacentBackslashes_suffix ['\\'] _ ha2
        simp only [atDot, hd, decide_True, if_true]
        rw [← hd]
        exact ih (d :: u) hlen hs2 ha3

/-- C11, as stated, fails: the path made of two backslashes consists of dots
and backslashes only, and the normalizer returns one backslash for it. -/
theorem normalize_two_backslashes_counterexample :
    (∀ c ∈ ['\\', '\\'], c = '.' ∨ c = '\\') ∧ normalize ['\\', '\\'] = ['\\'] ∧
      normalize ['\\', '\\'] ≠ [] := by
  refine ⟨by decide, by decide, by decide⟩

/-- C11, amended: for every path that consists of dots and backslashes only and
holds no two backslashes next to each other, the normalizer returns the empty
string; for every path of dots and backslashes the result is empty or begins
with a backslash. -/
theorem normalize_dots_backslashes (s : CStr) (hs : ∀ c ∈ s, c = '.' ∨ c = '\\') :
    (adjacentBackslashes s = false → normalize s = []) ∧
    (normalize s = [] ∨ (normalize s).head? = some '\\') := by
  constructor
  · intro ha
    have h := stripLoop_dots_backslashes (s.length + 1) s (by omega) hs ha
    simp [normalize, h]
  · obtain ⟨pre, h1, _, h3⟩ := normalize_spec s
    cases hq : normalize s with
    | nil => exact Or.inl rfl
    | cons c t =>
      right
      rw [hq] at h1 h3
      have hcs : c ∈ s := by rw [h1]; simp
      rcases hs c hcs with h | h
      · simp [atDot, h] at h3
      · simp [h]

theorem normalize_dots_backslashes_witness :
    (∀ c ∈ "..\\.\\".toList, c = '.' ∨ c = '\\') ∧
    adjacentBackslashes "..\\.\\".toList = false ∧
    normalize "..\\.\\".toList = [] :=
  ⟨by decide, by decide,
    (normalize_dots_backslashes "..\\.\\".toList (by decide)).1 (by decide)⟩

/-- C12: for every path `p` that does not begin with a dot, the normalizer
turns a dot, a backslash and then `p` into exactly `p`; the loop iteration of
`ParseGroup` for an element with that `Include` value derives the filter from
`p` (the characters of `p` before its last backslash, if it has one) and
stores the value with its leading dot and backslash as the filename. -/
theorem normalize_after_dot_backslash (group : CStr) (elem : XMLNode) (st : Globals) (p : CStr)
    (hp : p.head? ≠ some '.')
    (he : elem.Attribute "Include".toList = some ('.' :: '\\' :: p)) :
    normalize ('.' :: '\\' :: p) = p ∧
    ParseGroup.body group elem st =
      (if lastIndexInt p '\\' ≠ -1 then
        { g_filters := setInsert (p.take (lastIndexInt p '\\').toNat) st.g_filters
          g_files := pushBack group
            ⟨'.' :: '\\' :: p, p.take (lastIndexInt p '\\').toNat⟩ st.g_files }
      else
        { g_filters := st.g_filters
          g_files := pushBack group ⟨'.' :: '\\' :: p, []⟩ st.g_files }) := by
  have hd : atDot p = false := by
    cases hq : atDot p with
    | false => rfl
    | true => exact absurd ((atDot_iff p).1 hq) hp
  have hn : normalize ('.' :: '\\' :: p) = p := by
    simp [normalize, stripLoop, skipDots, skipSlash, hd]
  refine ⟨hn, ?_⟩
  unfold ParseGroup.body
  rw [he]
  simp only [hn]

theorem normalize_after_dot_backslash_witness :
    "src\\bar.cpp".toList.head? ≠ some '.' ∧
    normalize ".\\src\\bar.cpp".toList = "src\\bar.cpp".toList ∧
    ParseGroup.body "ClCompile".toList
        (.element "ClCompile".toList [("Include".toList, ".\\src\\bar.cpp".toList)] [])
        { g_filters := [], g_files := [("ClCompile".toList, [])] } =
      { g_filters := ["src".toList]
        g_files := [("ClCompile".toList, [⟨".\\src\\bar.cpp".toList, "src".toList⟩])] } :=
  ⟨by decide,
    (normalize_after_dot_backslash "ClCompile".toList
      (.element "ClCompile".toList [("Include".toList, ".\\src\\bar.cpp".toList)] [])
      { g_filters := [], g_files := [("ClCompile".toList, [])] } "src\\bar.cpp".toList
      (by decide) (by decide)).1,
    (normalize_after_dot_backslash "ClCompile".toList
      (.element "ClCompile".toList [("Include".toList, ".\\src\\bar.cpp".toList)] [])
      { g_filters := [], g_files := [("ClCompile".toList, [])] } "src\\bar.cpp".toList
      (by decide) (by decide)).2⟩

/-! ## Well-formedness of the printer calls -/

theorem addNode_stack_length (s : PrinterState) (n : XMLNode) :
    (s.addNode n).stack.length = s.stack.length := by
  unfold PrinterState.addNode
  cases s.stack <;> rfl

theorem addNode_justOpened (s : PrinterState) (n : XMLNode) :
    (s.addNode n).justOpened = false := by
  unfold PrinterState.addNode PrinterState.justOpened
  cases s.stack with
  | nil => rfl
  | cons f rest => simp

/-- Every allowed printer call changes the nesting depth as `nestingDepth`
counts it. -/
theorem printerStep_depth (s s1 : PrinterState) (c : PrinterCall) (cs : List PrinterCall)
    (h : printerStep s c = some s1) :
    nestingDepth s.stack.length (c :: cs) = nestingDepth s1.stack.length cs := by
  cases c with
  | PushHeader bom decl =>
    simp only [printerStep] at h
    cases hs : s.stack with
    | nil =>
      cases hd : s.done with
      | nil =>
        rw [hs, hd] at h
        simp only [Option.some.injEq] at h
        subst h
        cases decl
        · simp [nestingDepth, hs]
        · simp [nestingDepth, addNode_stack_length, hs]
      | cons d ds => rw [hs, hd] at h; simp at h
    | cons f rest => rw [hs] at h; simp at h
  | OpenElement name =>
    simp only [printerStep, Option.some.injEq] at h
    subst h
    simp [nestingDepth]
  | PushAttribute name value =>
    simp only [printerStep] at h
    cases hs : s.stack with
    | nil => rw [hs] at h; simp at h
    | cons f rest =>
      rw [hs] at h
      simp only at h
      split_ifs at h
      simp only [Option.some.injEq] at h
      subst h
      simp [nestingDepth]
  | PushText text =>
    simp only [printerStep] at h
    cases hs : s.stack with
    | nil => rw [hs] at h; simp at h
    | cons f rest =>
      rw [hs] at h
      simp only [Option.some.injEq] at h
      subst h
      simp [nestingDepth, addNode_stack_length, hs]
  | CloseElement =>
    simp only [printerStep] at h
    cases hs : s.stack with
    | nil => rw [hs] at h; simp at h
    | cons f rest =>
      rw [hs] at h
      simp only [Option.some.injEq] at h
      subst h
      simp [nestingDepth, addNode_stack_length]

/-- Every allowed printer call keeps the attributes in place as
`attributesInPlace` checks it. -/
theorem printerStep_attributes (s s1 : PrinterState) (c : PrinterCall) (cs : List PrinterCall)
    (h : printerStep s c = some s1) :
    attributesInPlace s.justOpened (c :: cs) = attributesInPlace s1.justOpened cs := by
  cases c with
  | PushHeader bom decl =>
    simp only [printerStep] at h
    cases hs : s.stack with
    | nil =>
      cases hd : s.done with
      | nil =>
        rw [hs, hd] at h
        simp only [Option.some.injEq] at h
        subst h
        cases decl
        · simp [attributesInPlace, PrinterState.justOpened, hs]
        · simp [attributesInPlace, addNode_justOpened]
      | cons d ds => rw [hs, hd] at h; simp at h
    | cons f rest => rw [hs] at h; simp at h
  | OpenElement name =>
    simp only [printerStep, Option.some.injEq] at h
    subst h
    simp [attributesInPlace, PrinterState.justOpened]
  | PushAttribute name value =>
    simp only [printerStep] at h
    cases hs : s.stack with
    | nil => rw [hs] at h; simp at h
    | cons f rest =>
      rw [hs] at h
      simp only at h
      split_ifs at h with hc
      simp only [Option.some.injEq] at h
      subst h
      simp [attributesInPlace, PrinterState.justOpened, hs, hc]
  | PushText text =>
    simp only [printerStep] at h
    cases hs : s.stack with
    | nil => rw [hs] at h; simp at h
    | cons f rest =>
      rw [hs] at h
      simp only [Option.some.injEq] at h
      subst h
      simp [attributesInPlace, addNode_justOpened]
  | CloseElement =>
    simp only [printerStep] at h
    cases hs : s.stack with
    | nil => rw [hs] at h; simp at h
    | cons f rest =>
      rw [hs] at h
      simp only [Option.some.injEq] at h
      subst h
      simp [attributesInPlace, addNode_justOpened]

theorem runPrinter_depth (s s2 : PrinterState) (calls : List PrinterCall)
    (h : runPrinter s calls = some s2) :
    nestingDepth s.stack.length calls = some s2.stack.length := by
  induction calls generalizing s with
  | nil =>
    simp only [runPrinter, Option.some.injEq] at h
    subst h
    simp [nestingDepth]
  | cons c cs ih =>
    simp only [runPrinter] at h
    cases hc : printerStep s c with
    | none => rw [hc] at h; simp at h
    | some s1 =>
      rw [hc] at h
      rw [printerStep_depth s s1 c cs hc]
      exact ih s1 h

theorem runPrinter_attributes (s s2 : PrinterState) (calls : List PrinterCall)
    (h : runPrinter s calls = some s2) : attributesInPlace s.justOpened calls = true := by
  induction calls generalizing s with
  | nil => rfl
  | cons c cs ih =>
    simp only [runPrinter] at h
    cases hc : printerStep s c with
    | none => rw [hc] at h; simp at h
    | some s1 =>
      rw [hc] at h
      rw [printerStep_attributes s s1 c cs hc]
      exact ih s1 h

/-- A sequence of printer calls that renders to a document closes every element
it opens and has every attribute in place. -/
theorem render_wellFormed (calls : List PrinterCall) (doc : List XMLNode)
    (h : render calls = some doc) :
    nestingDepth 0 calls = some 0 ∧ attributesInPlace false calls = true := by
  unfold render at h
  cases hr : runPrinter { stack := [], done := [] } calls with
  | none => rw [hr] at h; simp at h
  | some s =>
    rw [hr] at h
    simp only at h
    split_ifs at h with he
    have h0 : s.stack.length = 0 := by
      rw [List.isEmpty_iff] at he
      rw [he]
      rfl
    have hd := runPrinter_depth _ _ _ hr
    rw [h0] at hd
    exact ⟨hd, runPrinter_attributes _ _ _ hr⟩

/-- C13: for every filter set and every file-groups mapping, `MakeFilterFile`
with the file open makes a sequence of printer calls in which the nesting
depth never goes below zero and is zero at the end, every `PushAttribute`
directly follows the opening of its element, and which describes the
declaration followed by the single root element `Project` with the attributes
`ToolsVersion="4.0"` and `xmlns` (the MSBuild 2003 namespace) and exactly two
children, both `ItemGroup`; with both collections empty the two item groups
are empty. -/
theorem MakeFilterFile_wellFormed (st : Globals) :
    MakeFilterFile true st = some (MakeFilterFile.calls st) ∧
    nestingDepth 0 (MakeFilterFile.calls st) = some 0 ∧
    attributesInPlace false (MakeFilterFile.calls st) = true ∧
    (∃ first second,
      render (MakeFilterFile.calls st) =
        some [.declaration,
          .element "Project".toList
            [("ToolsVersion".toList, "4.0".toList),
             ("xmlns".toList, "http://schemas.microsoft.com/developer/msbuild/2003".toList)]
            [.element "ItemGroup".toList [] first, .element "ItemGroup".toList [] second]]) ∧
    render (MakeFilterFile.calls Globals.empty) =
      some [.declaration,
        .element "Project".toList
          [("ToolsVersion".toList, "4.0".toList),
           ("xmlns".toList, "http://schemas.microsoft.com/developer/msbuild/2003".toList)]
          [.element "ItemGroup".toList [] [], .element "ItemGroup".toList [] []]] := by
  have hw := render_wellFormed _ _ (render_calls st)
  exact ⟨rfl, hw.1, hw.2, ⟨_, _, render_calls st⟩, rfl⟩

/-! ## The exits of `main` -/

/-- C15: when the argument count is not two or loading the input fails, `main`
returns 1 with the globals still empty and without any attempt to open or
write the output; with a wrong argument count it prints the usage text and
does not attempt to load the input either, and after a failed load it prints
the error that names the path. -/
theorem main_early_exit (argv : List CStr) (loadResult : Option (List XMLNode))
    (fopenOk : Bool) (h : argv.length ≠ 2 ∨ loadResult = none) :
    (main argv loadResult fopenOk).exitCode = some 1 ∧
    (main argv loadResult fopenOk).globals = Globals.empty ∧
    (∀ ev ∈ (main argv loadResult fopenOk).events,
      (∀ path, ev ≠ .fopen path) ∧ (∀ calls, ev ≠ .write calls)) ∧
    (argv.length ≠ 2 →
      (main argv loadResult fopenOk).events =
        [.printf "Usage: vcproj2filter 'path/to/my.vcproj'\n".toList]) ∧
    (argv.length = 2 →
      (main argv loadResult fopenOk).events =
        [.loadFile (argv.getD 1 []),
         .printf ("Error: Could not open '".toList ++ argv.getD 1 [] ++ "'\n".toList)]) := by
  by_cases hl : argv.length ≠ 2
  · have hm : main argv loadResult fopenOk =
        { exitCode := some 1
          events := [.printf "Usage: vcproj2filter 'path/to/my.vcproj'\n".toList]
          globals := Globals.empty } := by
      unfold main
      rw [if_pos hl]
    rw [hm]
    refine ⟨rfl, rfl, ?_, fun _ => rfl, fun h2 => absurd h2 hl⟩
    intro ev hev
    rw [List.mem_singleton] at hev
    subst hev
    exact ⟨fun path hc => IOEvent.noConfusion hc, fun calls hc => IOEvent.noConfusion hc⟩
  · have hnone : loadResult = none := by
      rcases h with h | h
      · exact absurd h hl
      · exact h
    subst hnone
    have hm : main argv none fopenOk =
        { exitCode := some 1
          events := [.loadFile (argv.getD 1 []),
            .printf ("Error: Could not open '".toList ++ argv.getD 1 [] ++ "'\n".toList)]
          globals := Globals.empty } := by
      unfold main
      rw [if_neg hl]
    rw [hm]
    refine ⟨rfl, rfl, ?_, fun h2 => absurd h2 hl, fun _ => rfl⟩
    intro ev hev
    simp only [List.mem_cons, List.mem_singleton, List.not_mem_nil, or_false] at hev
    rcases hev with rfl | rfl
    · exact ⟨fun path hc => IOEvent.noConfusion hc, fun calls hc => IOEvent.noConfusion hc⟩
    · exact ⟨fun path hc => IOEvent.noConfusion hc, fun calls hc => IOEvent.noConfusion hc⟩

theorem main_early_exit_witness :
    (["vcproj2filter".toList].length ≠ 2 ∨
      some [XMLNode.declaration, .element "Project".toList [] []] = none) ∧
    (main ["vcproj2filter".toList]
        (some [.declaration, .element "Project".toList [] []]) true).exitCode = some 1 ∧
    (["vcproj2filter".toList, "missing.vcxproj".toList].length ≠ 2 ∨
      (none : Option (List XMLNode)) = none) ∧
    (main ["vcproj2filter".toList, "missing.vcxproj".toList] none true).exitCode = some 1 :=
  ⟨Or.inl (by decide),
    (main_early_exit ["vcproj2filter".toList]
      (some [.declaration, .element "Project".toList [] []]) true (Or.inl (by decide))).1,
    Or.inr rfl,
    (main_early_exit ["vcproj2filter".toList, "missing.vcxproj".toList] none true
      (Or.inr rfl)).1⟩

/-- C16, evaluated at two failing inputs: for a loaded document whose first
node is the `Project` element itself, and for one without any `Project`
element, the lookup of the `Project` sibling of the first node yields the null
pointer, `main` dereferences it and does not return. -/
theorem main_null_project :
    (main ["vcproj2filter".toList, "my.vcxproj".toList]
        (some [.element "Project".toList []
          [.element "ItemGroup".toList []
            [.element "ClCompile".toList [("Include".toList, "src\\a.cpp".toList)] []]]])
        true).exitCode = none ∧
    (main ["vcproj2filter".toList, "my.vcxproj".toList]
        (some [.declaration, .element "Other".toList [] []]) true).exitCode = none ∧
    NextSiblingElement
        [.element "Project".toList []
          [.element "ItemGroup".toList []
            [.element "ClCompile".toList [("Include".toList, "src\\a.cpp".toList)] []]]]
        "Project".toList = [] := by
  refine ⟨by decide, by decide, rfl⟩

/-! ## The keys of `g_files` -/

/-- C17, as stated, fails: after a document whose only item is a `ClCompile`
item, `g_files` also has the keys `ClInclude` and `None`, each with an empty
vector, although no element of those tags occurs in the document. -/
theorem absent_tag_has_key_counterexample :
    (main ["vcproj2filter".toList, "my.vcxproj".toList]
        (some [.declaration,
          .element "Project".toList []
            [.element "ItemGroup".toList []
              [.element "ClCompile".toList [("Include".toList, "a.cpp".toList)] []]]])
        true).globals.g_files =
      [("ClCompile".toList, [⟨"a.cpp".toList, []⟩]), ("ClInclude".toList, []),
       ("None".toList, [])] ∧
    "ClInclude".toList ∈ keysOf (main ["vcproj2filter".toList, "my.vcxproj".toList]
        (some [.declaration,
          .element "Project".toList []
            [.element "ItemGroup".toList []
              [.element "ClCompile".toList [("Include".toList, "a.cpp".toList)] []]]])
        true).globals.g_files := by
  constructor
  · decide
  · decide

/-- C17, amended: after the traversal of any document, `g_files` has no key
when the project has no unlabeled `ItemGroup`, and otherwise exactly the three
keys `ClCompile`, `ClInclude` and `None` in this order, whatever the children
of the item groups; the vector under a key holds one entry per `Include`
value of the items of that tag, so it is empty for a tag without such items. -/
theorem keys_after_traversal (argv0 vcproj : CStr) (doc : List XMLNode)
    (projectGroup : XMLNode) (rest : List XMLNode) (fopenOk : Bool)
    (hproj : NextSiblingElement doc "Project".toList = projectGroup :: rest) :
    keysOf (main [argv0, vcproj] (some doc) fopenOk).globals.g_files =
      (if (unlabeledItemGroups projectGroup).isEmpty then []
       else ["ClCompile".toList, "ClInclude".toList, "None".toList]) ∧
    ∀ kv ∈ (main [argv0, vcproj] (some doc) fopenOk).globals.g_files,
      kv.2.map (fun e => e.m_filename) = docIncludes kv.1 projectGroup := by
  rw [main_globals argv0 vcproj doc projectGroup rest fopenOk hproj]
  unfold collected
  simp only []
  cases h : (unlabeledItemGroups projectGroup).isEmpty with
  | true =>
    refine ⟨rfl, ?_⟩
    intro kv hkv
    simp at hkv
  | false =>
    refine ⟨rfl, ?_⟩
    intro kv hkv
    simp only [Bool.false_eq_true, if_false] at hkv
    obtain ⟨tag, _, rfl⟩ := List.mem_map.1 hkv
    simp only [List.map_map]
    conv_rhs => rw [← List.map_id (docIncludes tag projectGroup)]
    apply List.map_congr_left
    intro p _
    exact entryOf_filename p

theorem keys_after_traversal_witness :
    keysOf (main ["vcproj2filter".toList, "my.vcxproj".toList]
        (some [.declaration,
          .element "Project".toList []
            [.element "ItemGroup".toList [("Label".toList, "L".toList)]
              [.element "ClCompile".toList [("Include".toList, "a.cpp".toList)] []]]])
        false).globals.g_files = [] ∧
    keysOf (main ["vcproj2filter".toList, "my.vcxproj".toList]
        (some [.declaration, .element "Project".toList [] [.element "ItemGroup".toList [] []]])
        false).globals.g_files =
      ["ClCompile".toList, "ClInclude".toList, "None".toList] :=
  ⟨(keys_after_traversal "vcproj2filter".toList "my.vcxproj".toList
      [.declaration,
       .element "Project".toList []
         [.element "ItemGroup".toList [("Label".toList, "L".toList)]
           [.element "ClCompile".toList [("Include".toList, "a.cpp".toList)] []]]]
      (.element "Project".toList []
         [.element "ItemGroup".toList [("Label".toList, "L".toList)]
           [.element "ClCompile".toList [("Include".toList, "a.cpp".toList)] []]])
      [] false rfl).1,
    (keys_after_traversal "vcproj2filter".toList "my.vcxproj".toList
      [.declaration, .element "Project".toList [] [.element "ItemGroup".toList [] []]]
      (.element "Project".toList [] [.element "ItemGroup".toList [] []])
      [] false rfl).1⟩

/-! ## The empty filter name -/

/-- C18: when the normalized `Include` value of the only item of a document
begins with its only backslash, the traversal registers the empty string in
`g_filters` while the filtername of the entry is empty; the written document
then lists a `Filter` element with the empty `Include` value in the first
item group, and the element of the entry in the second item group has no
`Filter` child. -/
theorem empty_filter_name_registered (argv0 vcproj : CStr) (doc : List XMLNode)
    (projectGroup : XMLNode) (rest : List XMLNode) (p tail : CStr)
    (hproj : NextSiblingElement doc "Project".toList = projectGroup :: rest)
    (hcc : docIncludes "ClCompile".toList projectGroup = [p])
    (hci : docIncludes "ClInclude".toList projectGroup = [])
    (hno : docIncludes "None".toList projectGroup = [])
    (hn : normalize p = '\\' :: tail) (ht : '\\' ∉ tail) :
    (main [argv0, vcproj] (some doc) true).globals =
      { g_filters := [[]]
        g_files := [("ClCompile".toList, [⟨p, []⟩]), ("ClInclude".toList, []),
                    ("None".toList, [])] } ∧
    (main [argv0, vcproj] (some doc) true).document =
      some [.declaration,
        .element "Project".toList
          [("ToolsVersion".toList, "4.0".toList),
           ("xmlns".toList, "http://schemas.microsoft.com/developer/msbuild/2003".toList)]
          [.element "ItemGroup".toList [] [.element "Filter".toList [("Include".toList, [])] []],
           .element "ItemGroup".toList []
             [.element "ClCompile".toList [("Include".toList, p)] []]]] := by
  have hsplit : normalize p = [] ++ '\\' :: tail := hn
  have hfl : (collected projectGroup).g_filters = [[]] := by
    unfold collected
    simp only []
    rw [itemGroupIncludes_of_only_compile projectGroup hci hno, hcc]
    simp only [List.filterMap_cons, List.filterMap_nil, filterOf_of_split p [] tail hsplit ht]
    rfl
  have hne : (unlabeledItemGroups projectGroup).isEmpty = false := by
    cases h : (unlabeledItemGroups projectGroup).isEmpty with
    | false => rfl
    | true =>
      have h0 : unlabeledItemGroups projectGroup = [] := List.isEmpty_iff.1 h
      simp [docIncludes, h0] at hcc
  have hfiles : (collected projectGroup).g_files =
      [("ClCompile".toList, [⟨p, []⟩]), ("ClInclude".toList, []), ("None".toList, [])] := by
    unfold collected
    simp only [hne, Bool.false_eq_true, if_false, groupTags, List.map_cons, List.map_nil, hcc,
      hci, hno, entryOf_of_split p [] tail hsplit ht]
  constructor
  · rw [main_globals argv0 vcproj doc projectGroup rest true hproj]
    cases hc : collected projectGroup with
    | mk fs gs =>
      rw [hc] at hfl hfiles
      simp only at hfl hfiles
      rw [hfl, hfiles]
  · rw [main_run_document argv0 vcproj doc projectGroup rest hproj, hfl, hfiles]
    rfl

theorem empty_filter_name_registered_witness :
    normalize "\\\\a.cpp".toList = '\\' :: "a.cpp".toList ∧
    '\\' ∉ "a.cpp".toList ∧
    (main ["vcproj2filter".toList, "my.vcxproj".toList]
        (some [.declaration,
          .element "Project".toList []
            [.element "ItemGroup".toList []
              [.element "ClCompile".toList [("Include".toList, "\\\\a.cpp".toList)] []]]])
        true).globals =
      { g_filters := [[]]
        g_files := [("ClCompile".toList, [⟨"\\\\a.cpp".toList, []⟩]), ("ClInclude".toList, []),
                    ("None".toList, [])] } :=
  ⟨by decide, by decide,
    (empty_filter_name_registered "vcproj2filter".toList "my.vcxproj".toList
      [.declaration,
       .element "Project".toList []
         [.element "ItemGroup".toList []
           [.element "ClCompile".toList [("Include".toList, "\\\\a.cpp".toList)] []]]]
      (.element "Project".toList []
         [.element "ItemGroup".toList []
           [.element "ClCompile".toList [("Include".toList, "\\\\a.cpp".toList)] []]])
      [] "\\\\a.cpp".toList "a.cpp".toList
      rfl (by decide) (by decide) (by decide) (by decide) (by decide)).1⟩

/-! ## No filter name begins with a dot -/

theorem filterOf_no_leading_dot (p f : CStr) (h : filterOf p = some f) :
    f.head? ≠ some '.' := by
  obtain ⟨tail, h1, _⟩ := filterOf_some_split p f h
  obtain ⟨_, _, _, h3⟩ := normalize_spec p
  rw [h1] at h3
  cases f with
  | nil => simp
  | cons c t =>
    intro hc
    simp only [List.head?_cons, Option.some.injEq] at hc
    simp [atDot, hc] at h3

theorem entryOf_no_leading_dot (p : CStr) : (entryOf p).m_filtername.head? ≠ some '.' := by
  unfold entryOf
  cases h : filterOf p with
  | none => simp
  | some f => exact filterOf_no_leading_dot p f h

theorem record_no_leading_dot (g : CStr) (st : Globals) (p : CStr) (h : NoLeadingDot st) :
    NoLeadingDot (record g st p) := by
  obtain ⟨h1, h2⟩ := h
  constructor
  · intro f hf
    unfold record at hf
    simp only at hf
    cases hq : filterOf p with
    | none =>
      rw [hq] at hf
      exact h1 f hf
    | some x =>
      rw [hq] at hf
      rcases (mem_setInsert x f _).1 hf with rfl | hf
      · exact filterOf_no_leading_dot p f hq
      · exact h1 f hf
  · intro kv hkv e he
    have hkv2 : kv ∈ pushBack g (entryOf p) st.g_files := hkv
    rcases mem_pushBack g (entryOf p) st.g_files kv hkv2 with h3 | ⟨v, hv, rfl⟩
    · exact h2 kv h3 e he
    · rcases List.mem_append.1 he with h4 | h4
      · exact h2 (g, v) hv e h4
      · rw [List.mem_singleton] at h4
        subst h4
        exact entryOf_no_leading_dot p

theorem foldl_record_no_leading_dot (g : CStr) (ps : List CStr) (st : Globals)
    (h : NoLeadingDot st) : NoLeadingDot (ps.foldl (record g) st) := by
  induction ps generalizing st with
  | nil => exact h
  | cons p rest ih => exact ih _ (record_no_leading_dot g st p h)

theorem ParseGroup_no_leading_dot (itemGroup : NodePtr) (g : CStr) (st : Globals)
    (h : NoLeadingDot st) : NoLeadingDot (ParseGroup itemGroup g st) := by
  rw [ParseGroup_eq]
  apply foldl_record_no_leading_dot
  refine ⟨h.1, ?_⟩
  intro kv hkv e he
  rcases mem_mapIndex g st.g_files kv hkv with h1 | rfl
  · exact h.2 kv h1 e he
  · simp at he

theorem ParseItemGroup_no_leading_dot (itemGroup : XMLNode) (st : Globals)
    (h : NoLeadingDot st) : NoLeadingDot (ParseItemGroup itemGroup st) := by
  cases hl : itemGroup.Attribute "Label".toList with
  | some label => rw [ParseItemGroup_labeled _ _ label hl]; exact h
  | none =>
    rw [ParseItemGroup_unlabeled _ _ hl]
    exact ParseGroup_no_leading_dot _ _ _
      (ParseGroup_no_leading_dot _ _ _ (ParseGroup_no_leading_dot _ _ _ h))

theorem foldl_ParseItemGroup_reachable (igs : List XMLNode) (st : Globals)
    (h : Reachable st) : Reachable (igs.foldl (fun s ig => ParseItemGroup ig s) st) := by
  induction igs generalizing st with
  | nil => exact h
  | cons ig rest ih => exact ih _ (Reachable.parseItemGroup st ig h)

theorem extract_reachable (doc : List XMLNode) (st : Globals) (h : extract doc = some st) :
    Reachable st := by
  cases doc with
  | nil => simp [extract] at h
  | cons root after =>
    simp only [extract] at h
    cases hq : NextSiblingElement (root :: after) "Project".toList with
    | nil => rw [hq] at h; simp at h
    | cons projectGroup more =>
      rw [hq] at h
      simp only [] at h
      rw [main_loop_eq _ _ _ (le_refl _)] at h
      simp only [Option.some.injEq] at h
      rw [← h]
      exact foldl_ParseItemGroup_reachable _ _ Reachable.empty

/-- The globals at the end of any run of `main` are reachable. -/
theorem main_globals_reachable (argv : List CStr) (loadResult : Option (List XMLNode))
    (fopenOk : Bool) : Reachable (main argv loadResult fopenOk).globals := by
  unfold main
  split_ifs
  · exact Reachable.empty
  · cases loadResult with
    | none => exact Reachable.empty
    | some doc =>
      simp only []
      cases he : extract doc with
      | none => exact Reachable.empty
      | some st =>
        simp only [MakeFilterFile]
        cases fopenOk
        · exact extract_reachable doc st he
        · exact extract_reachable doc st he

/-- C19: in every state reachable from the empty state by calls of
`ParseItemGroup` and `ParseGroup`, which includes the state at the end of any
run of `main`, no name in `g_filters` and no filtername of a stored entry
begins with a dot. -/
theorem no_filter_name_begins_with_dot (st : Globals) (h : Reachable st) :
    (∀ f ∈ st.g_filters, f.head? ≠ some '.') ∧
    (∀ kv ∈ st.g_files, ∀ e ∈ kv.2, e.m_filtername.head? ≠ some '.') := by
  induction h with
  | empty =>
    constructor
    · intro f hf
      simp [Globals.empty] at hf
    · intro kv hkv
      simp [Globals.empty] at hkv
  | parseItemGroup st ig _ ih => exact ParseItemGroup_no_leading_dot ig st ih
  | parseGroup st p g _ ih => exact ParseGroup_no_leading_dot p g st ih

theorem no_filter_name_begins_with_dot_witness :
    Reachable (main ["vcproj2filter".toList, "my.vcxproj".toList]
        (some [.declaration,
          .element "Project".toList []
            [.element "ItemGroup".toList []
              [.element "ClCompile".toList [("Include".toList, "..\\src\\a.cpp".toList)] [],
               .element "ClInclude".toList [("Include".toList, ".\\inc\\a.h".toList)] []]]])
        true).globals ∧
    (main ["vcproj2filter".toList, "my.vcxproj".toList]
        (some [.declaration,
          .element "Project".toList []
            [.element "ItemGroup".toList []
              [.element "ClCompile".toList [("Include".toList, "..\\src\\a.cpp".toList)] [],
               .element "ClInclude".toList [("Include".toList, ".\\inc\\a.h".toList)] []]]])
        true).globals.g_filters = ["inc".toList, "src".toList] ∧
    ∀ f ∈ (main ["vcproj2filter".toList, "my.vcxproj".toList]
        (some [.declaration,
          .element "Project".toList []
            [.element "ItemGroup".toList []
              [.element "ClCompile".toList [("Include".toList, "..\\src\\a.cpp".toList)] [],
               .element "ClInclude".toList [("Include".toList, ".\\inc\\a.h".toList)] []]]])
        true).globals.g_filters, f.head? ≠ some '.' :=
  ⟨main_globals_reachable _ _ _, by decide,
    (no_filter_name_begins_with_dot _ (main_globals_reachable
      ["vcproj2filter".toList, "my.vcxproj".toList]
      (some [.declaration,
        .element "Project".toList []
          [.element "ItemGroup".toList []
            [.element "ClCompile".toList [("Include".toList, "..\\src\\a.cpp".toList)] [],
             .element "ClInclude".toList [("Include".toList, ".\\inc\\a.h".toList)] []]]])
      true)).1⟩

end Vcproj2Filter
